import Mathlib

/-!
Verification of the multi-marker audio→slide-video pipeline.

The JavaScript sources are shallowly embedded: strings become `List Char`
(one entry per Unicode scalar value; all inputs considered are BMP text, where
this agrees with JavaScript's UTF-16 code-unit view), floating-point times
become exact rationals (`ℚ`), and external boundaries (speech recognition,
ffmpeg probing, per-marker processing) become explicit outcome oracles of type
`Except`.  Every definition follows the corresponding source function
line by line.
-/

/-! ### Character classes and trimming (JS `trim`, regex classes) -/

/-- The sentence-ending class of `videoSynth.js`: `[。！？；\n]`. -/
def isSentencePunct (c : Char) : Bool :=
  c = '。' || c = '！' || c = '？' || c = '；' || c = '\n'

/-- The comma class `[，,]`. -/
def isCommaChar (c : Char) : Bool := c = '，' || c = ','

/-- JavaScript whitespace as removed by `String.prototype.trim`
(ASCII blanks, NBSP, ideographic space, BOM). -/
def isJsSpace (c : Char) : Bool :=
  c = ' ' || c = '\t' || c = '\n' || c = '\r' || c = '\x0b' || c = '\x0c' ||
  c = ' ' || c = '　' || c = '﻿'

/-- Drop leading JS whitespace. -/
def dropJsSpace : List Char → List Char
  | [] => []
  | c :: cs => if isJsSpace c then dropJsSpace cs else c :: cs

/-- JS `String.prototype.trim` on the character-list view. -/
def jsTrim (s : List Char) : List Char :=
  ((dropJsSpace s).reverse |> dropJsSpace).reverse

/-! ### `String.prototype.split` with a captured separator

`text.split(/([punct])/)` alternates text pieces (possibly empty) with
single-character separator pieces; `text.split(/([punct]+)/)` groups maximal
separator runs into one piece. -/

/-- JS `split` with a single-character capture group: `acc` is the reversed
current text piece. -/
def splitKeepSep (sep : Char → Bool) (acc : List Char) : List Char → List (List Char)
  | [] => [acc.reverse]
  | c :: rest =>
    if sep c then acc.reverse :: [c] :: splitKeepSep sep [] rest
    else splitKeepSep sep (c :: acc) rest

/-- JS `split` with a `+`-quantified capture group (runs of separators kept as
one piece): `acc` is the reversed current piece, `inSep` tells whether it is a
separator run. -/
def splitRunsLoop (sep : Char → Bool) (acc : List Char) (inSep : Bool) :
    List Char → List (List Char)
  | [] => if inSep then [acc.reverse, []] else [acc.reverse]
  | c :: rest =>
    if sep c then
      if inSep then splitRunsLoop sep (c :: acc) true rest
      else acc.reverse :: splitRunsLoop sep [c] true rest
    else
      if inSep then acc.reverse :: splitRunsLoop sep [c] false rest
      else splitRunsLoop sep (c :: acc) false rest

/-- The JS `text.split(/([…]+)/)` on the character-list view. -/
def splitKeepRuns (sep : Char → Bool) (text : List Char) : List (List Char) :=
  splitRunsLoop sep [] false text

/-! ### Subtitle timer (`generateSubtitlesFromScript`, videoSynth.js 29–109) -/

/-- One timed subtitle cue `{text, start, duration}`. -/
structure Cue where
  text : List Char
  start : ℚ
  duration : ℚ
deriving DecidableEq

/-- The sentence-merging loop of `generateSubtitlesFromScript` (lines 38–56):
separator parts terminate the current sentence, attaching the punctuation
(a bare `'\n'` part is dropped); a trailing unterminated sentence is pushed
trimmed. -/
def mergeSegsLoop : List (List Char) → List Char → List (List Char)
  | [], currentSegment =>
    if jsTrim currentSegment ≠ [] then [jsTrim currentSegment] else []
  | part :: rest, currentSegment =>
    if part.any isSentencePunct then
      if currentSegment ≠ [] then
        (jsTrim currentSegment ++ (if part = ['\n'] then [] else part)) ::
          mergeSegsLoop rest []
      else mergeSegsLoop rest currentSegment
    else mergeSegsLoop rest (currentSegment ++ part)

/-- Lines 35–56: split on `/([。！？；\n])/`, keep parts with non-blank trim,
then merge punctuation into sentences. -/
def segmentsOf (script : List Char) : List (List Char) :=
  mergeSegsLoop
    ((splitKeepSep isSentencePunct [] script).filter fun s => (jsTrim s).length > 0)
    []

/-- The accumulation loop of `splitByComma` (lines 120–140). -/
def splitByCommaLoop (maxLength : ℕ) : List (List Char) → List Char → List (List Char)
  | [], current => if jsTrim current ≠ [] then [jsTrim current] else []
  | part :: rest, current =>
    if part.any isCommaChar then
      let current2 := current ++ part
      if (maxLength : ℚ) * 0.7 ≤ (current2.length : ℚ) then
        jsTrim current2 :: splitByCommaLoop maxLength rest []
      else splitByCommaLoop maxLength rest current2
    else
      if maxLength < current.length + part.length then
        if jsTrim current ≠ [] then
          jsTrim current :: splitByCommaLoop maxLength rest part
        else splitByCommaLoop maxLength rest part
      else splitByCommaLoop maxLength rest (current ++ part)

/-- The function `splitByComma(text, maxLength)` (videoSynth.js 117–147). -/
def splitByComma (text : List Char) (maxLength : ℕ) : List (List Char) :=
  let parts :=
    (splitKeepSep isCommaChar [] text).filter fun s => (jsTrim s).length > 0
  let result := splitByCommaLoop maxLength parts []
  if result.length > 0 then result else [text.take maxLength ++ ('.' :: '.' :: '.' :: [])]

/-- The `subParts.forEach((subPart, subIndex) => …)` body (lines 90–96):
cue `subIndex` starts at `currentTime + subIndex * subDuration` with duration
`max 1 subDuration`. -/
def subCueList (currentTime subDuration : ℚ) : ℕ → List (List Char) → List Cue
  | _, [] => []
  | j, sp :: rest =>
    Cue.mk sp (currentTime + (j : ℚ) * subDuration) (max 1 subDuration) ::
      subCueList currentTime subDuration (j + 1) rest

/-- Lines 73–78: `duration = totalDuration * (segment.length / totalChars)`
clamped to `[1.5, 8]` — the allotment of every segment except the last. -/
def clampedDur (totalDuration : ℚ) (totalChars : ℕ) (seg : List Char) : ℚ :=
  max 1.5 (min (totalDuration * ((seg.length : ℚ) / (totalChars : ℚ))) 8)

/-- Lines 85–103: cues of one segment — comma re-split with evenly divided
duration (floored at 1 s per cue) when longer than 25 characters, a single
cue otherwise. -/
def segCues (seg : List Char) (currentTime duration : ℚ) : List Cue :=
  if 25 < seg.length then
    subCueList currentTime (duration / ((splitByComma seg 25).length : ℚ)) 0
      (splitByComma seg 25)
  else [Cue.mk seg currentTime duration]

/-- The `segments.forEach((segment, index) => …)` loop (lines 72–106).
The empty-tail case plays the role of `index === segments.length - 1`, whose
segment receives `max 1.5 (totalDuration - currentTime)` instead of the clamp. -/
def buildCues (totalDuration : ℚ) (totalChars : ℕ) : List (List Char) → ℚ → List Cue
  | [], _ => []
  | seg :: rest, currentTime =>
    let duration :=
      if rest = [] then max 1.5 (totalDuration - currentTime)
      else clampedDur totalDuration totalChars seg
    segCues seg currentTime duration ++
      buildCues totalDuration totalChars rest (currentTime + duration)

/-- Line 63: `segments.reduce((sum, seg) => sum + seg.length, 0)`. -/
def totalCharsOf (segs : List (List Char)) : ℕ := (segs.map List.length).sum

/-- The function `generateSubtitlesFromScript(script, totalDuration)`
(videoSynth.js 29–109):
the three early returns (falsy script / non-positive duration, no segments,
zero character count) followed by the timing loop. -/
def generateSubtitlesFromScript (script : List Char) (totalDuration : ℚ) : List Cue :=
  if script = [] ∨ totalDuration ≤ 0 then []
  else if segmentsOf script = [] then []
  else if totalCharsOf (segmentsOf script) = 0 then []
  else buildCues totalDuration (totalCharsOf (segmentsOf script)) (segmentsOf script) 0

/-- The `currentTime` accumulated over all segments before the last one:
every non-final segment advances time by its clamped allotment. -/
def leadDuration (totalDuration : ℚ) (totalChars : ℕ) (segs : List (List Char)) : ℚ :=
  (segs.dropLast.map (clampedDur totalDuration totalChars)).sum

/-! ### Structural lemmas about the subtitle timer -/

theorem splitByComma_ne_nil (text : List Char) (maxLength : ℕ) :
    splitByComma text maxLength ≠ [] := by
  unfold splitByComma
  by_cases h : (splitByCommaLoop maxLength
      ((splitKeepSep isCommaChar [] text).filter fun s => (jsTrim s).length > 0) []).length > 0
  · simp only [h, if_pos]
    intro hc
    rw [hc] at h
    simp at h
  · simp [h]

theorem subCueList_mem_duration (t d : ℚ) :
    ∀ (sps : List (List Char)) (j : ℕ) (c : Cue),
      c ∈ subCueList t d j sps → c.duration = max 1 d := by
  intro sps
  induction sps with
  | nil => intro j c h; simp [subCueList] at h
  | cons sp rest ih =>
    intro j c h
    rcases List.mem_cons.mp h with h | h
    · rw [h]
    · exact ih (j + 1) c h

theorem subCueList_start_lb (t d : ℚ) (hd : 0 ≤ d) :
    ∀ (sps : List (List Char)) (j : ℕ) (c : Cue),
      c ∈ subCueList t d j sps → t + (j : ℚ) * d ≤ c.start := by
  intro sps
  induction sps with
  | nil => intro j c h; simp [subCueList] at h
  | cons sp rest ih =>
    intro j c h
    rcases List.mem_cons.mp h with h | h
    · rw [h]
    · have h1 := ih (j + 1) c h
      have h2 : (j : ℚ) * d ≤ ((j : ℚ) + 1) * d :=
        mul_le_mul_of_nonneg_right (by linarith) hd
      push_cast at h1
      linarith

theorem subCueList_start_ub (t d : ℚ) (hd : 0 ≤ d) :
    ∀ (sps : List (List Char)) (j : ℕ) (c : Cue),
      c ∈ subCueList t d j sps → c.start ≤ t + ((j : ℚ) + (sps.length : ℚ)) * d := by
  intro sps
  induction sps with
  | nil => intro j c h; simp [subCueList] at h
  | cons sp rest ih =>
    intro j c h
    rcases List.mem_cons.mp h with h | h
    · rw [h]
      have hr : (0 : ℚ) ≤ (rest.length : ℚ) := Nat.cast_nonneg _
      have h2 : (j : ℚ) * d ≤ ((j : ℚ) + ((rest.length : ℚ) + 1)) * d :=
        mul_le_mul_of_nonneg_right (by linarith) hd
      simp only [List.length_cons]
      push_cast
      linarith
    · have h1 := ih (j + 1) c h
      simp only [List.length_cons]
      push_cast at h1 ⊢
      linarith

theorem subCueList_sorted (t d : ℚ) (hd : 0 ≤ d) :
    ∀ (sps : List (List Char)) (j : ℕ),
      (subCueList t d j sps).Pairwise fun a b => a.start ≤ b.start := by
  intro sps
  induction sps with
  | nil => intro j; simp [subCueList]
  | cons sp rest ih =>
    intro j
    refine List.Pairwise.cons ?_ (ih (j + 1))
    intro b hb
    have h1 := subCueList_start_lb t d hd rest (j + 1) b hb
    have h2 : (j : ℚ) * d ≤ ((j : ℚ) + 1) * d :=
      mul_le_mul_of_nonneg_right (by linarith) hd
    push_cast at h1
    simp only [Cue.mk]
    linarith

theorem subCueList_getLast (t d : ℚ) :
    ∀ (sps : List (List Char)) (sp : List Char) (j : ℕ),
      ∃ spl, (subCueList t d j (sp :: sps)).getLast? =
        some (Cue.mk spl (t + ((j : ℚ) + (sps.length : ℚ)) * d) (max 1 d)) := by
  intro sps
  induction sps with
  | nil =>
    intro sp j
    refine ⟨sp, ?_⟩
    simp [subCueList]
  | cons sp2 rest ih =>
    intro sp j
    obtain ⟨spl, hl⟩ := ih sp2 (j + 1)
    refine ⟨spl, ?_⟩
    have e1 : subCueList t d j (sp :: sp2 :: rest) =
        Cue.mk sp (t + (j : ℚ) * d) (max 1 d) ::
          Cue.mk sp2 (t + ((j + 1 : ℕ) : ℚ) * d) (max 1 d) ::
            subCueList t d (j + 1 + 1) rest := rfl
    have e2 : subCueList t d (j + 1) (sp2 :: rest) =
        Cue.mk sp2 (t + ((j + 1 : ℕ) : ℚ) * d) (max 1 d) ::
          subCueList t d (j + 1 + 1) rest := rfl
    rw [e1, List.getLast?_cons_cons, ← e2, hl]
    congr 2
    simp only [List.length_cons]
    push_cast
    ring

theorem segCues_ne_nil (seg : List Char) (ct dur : ℚ) : segCues seg ct dur ≠ [] := by
  unfold segCues
  by_cases h : 25 < seg.length
  · simp only [h, if_pos]
    obtain ⟨sp, sps, hsp⟩ := List.exists_cons_of_ne_nil (splitByComma_ne_nil seg 25)
    rw [hsp]
    simp [subCueList]
  · simp [h]

theorem segCues_duration_ge_one (seg : List Char) (ct dur : ℚ) (hdur : 1 ≤ dur) :
    ∀ c ∈ segCues seg ct dur, 1 ≤ c.duration := by
  intro c hc
  unfold segCues at hc
  by_cases h : 25 < seg.length
  · rw [if_pos h] at hc
    rw [subCueList_mem_duration _ _ _ _ _ hc]
    exact le_max_left _ _
  · rw [if_neg h] at hc
    simp only [List.mem_singleton] at hc
    rw [hc]
    exact hdur

theorem segCues_start_lb (seg : List Char) (ct dur : ℚ) (hdur : 0 ≤ dur) :
    ∀ c ∈ segCues seg ct dur, ct ≤ c.start := by
  intro c hc
  unfold segCues at hc
  by_cases h : 25 < seg.length
  · rw [if_pos h] at hc
    have hd : 0 ≤ dur / ((splitByComma seg 25).length : ℚ) :=
      div_nonneg hdur (Nat.cast_nonneg _)
    have := subCueList_start_lb ct _ hd _ 0 c hc
    simpa using this
  · rw [if_neg h] at hc
    simp only [List.mem_singleton] at hc
    rw [hc]

theorem segCues_start_ub (seg : List Char) (ct dur : ℚ) (hdur : 0 ≤ dur) :
    ∀ c ∈ segCues seg ct dur, c.start ≤ ct + dur := by
  intro c hc
  unfold segCues at hc
  by_cases h : 25 < seg.length
  · rw [if_pos h] at hc
    have hn0 : ((splitByComma seg 25).length : ℚ) ≠ 0 := by
      simp only [ne_eq, Nat.cast_eq_zero, List.length_eq_zero]
      exact splitByComma_ne_nil seg 25
    have hd : 0 ≤ dur / ((splitByComma seg 25).length : ℚ) :=
      div_nonneg hdur (Nat.cast_nonneg _)
    have hub := subCueList_start_ub ct _ hd _ 0 c hc
    have hmul : (((0 : ℕ) : ℚ) + ((splitByComma seg 25).length : ℚ)) *
        (dur / ((splitByComma seg 25).length : ℚ)) = dur := by
      push_cast
      field_simp
    rw [hmul] at hub
    exact hub
  · rw [if_neg h] at hc
    simp only [List.mem_singleton] at hc
    rw [hc]
    simp only [Cue.mk]
    linarith

theorem segCues_sorted (seg : List Char) (ct dur : ℚ) (hdur : 0 ≤ dur) :
    (segCues seg ct dur).Pairwise fun a b => a.start ≤ b.start := by
  unfold segCues
  by_cases h : 25 < seg.length
  · rw [if_pos h]
    exact subCueList_sorted ct _ (div_nonneg hdur (Nat.cast_nonneg _)) _ 0
  · rw [if_neg h]
    simp

theorem segCues_head_start (seg : List Char) (ct dur : ℚ) :
    ∀ c, (segCues seg ct dur).head? = some c → c.start = ct := by
  intro c hc
  unfold segCues at hc
  by_cases h : 25 < seg.length
  · rw [if_pos h] at hc
    obtain ⟨sp, sps, hsp⟩ := List.exists_cons_of_ne_nil (splitByComma_ne_nil seg 25)
    rw [hsp] at hc
    simp only [subCueList, List.head?_cons, Option.some.injEq] at hc
    rw [← hc]
    simp
  · rw [if_neg h] at hc
    simp only [List.head?_cons, Option.some.injEq] at hc
    rw [← hc]

theorem segCues_last_cover (seg : List Char) (ct dur : ℚ)
    (hcond : seg.length ≤ 25 ∨ 1 ≤ dur / ((splitByComma seg 25).length : ℚ)) :
    ∀ c, (segCues seg ct dur).getLast? = some c → c.start + c.duration = ct + dur := by
  intro c hc
  unfold segCues at hc
  by_cases h : 25 < seg.length
  · rw [if_pos h] at hc
    have h1 : 1 ≤ dur / ((splitByComma seg 25).length : ℚ) := by
      rcases hcond with hle | hd
      · omega
      · exact hd
    obtain ⟨sp, sps, hsp⟩ := List.exists_cons_of_ne_nil (splitByComma_ne_nil seg 25)
    rw [hsp] at hc h1
    obtain ⟨spl, hl⟩ := subCueList_getLast ct (dur / (((sp :: sps).length : ℕ) : ℚ)) sps sp 0
    rw [hl] at hc
    have hceq := Option.some.inj hc
    have hn0 : (((sp :: sps).length : ℕ) : ℚ) ≠ 0 := Nat.cast_ne_zero.mpr (by simp)
    have hlen : (((sp :: sps).length : ℕ) : ℚ) = (sps.length : ℚ) + 1 := by
      push_cast [List.length_cons]
      ring
    rw [← hceq]
    simp only [Cue.mk]
    rw [max_eq_right h1]
    have hre : (((0 : ℕ) : ℚ) + (sps.length : ℚ)) * (dur / (((sp :: sps).length : ℕ) : ℚ)) +
        dur / (((sp :: sps).length : ℕ) : ℚ) =
        ((sps.length : ℚ) + 1) * (dur / (((sp :: sps).length : ℕ) : ℚ)) := by
      push_cast
      ring
    rw [add_assoc, hre, ← hlen, mul_div_cancel₀ _ hn0]
  · rw [if_neg h] at hc
    simp only [List.getLast?_singleton, Option.some.injEq] at hc
    rw [← hc]

theorem buildCues_cons (td : ℚ) (tc : ℕ) (seg : List Char) (rest : List (List Char))
    (ct : ℚ) :
    buildCues td tc (seg :: rest) ct =
      segCues seg ct (if rest = [] then max 1.5 (td - ct) else clampedDur td tc seg) ++
        buildCues td tc rest
          (ct + if rest = [] then max 1.5 (td - ct) else clampedDur td tc seg) := rfl

theorem stepDur_ge (td : ℚ) (tc : ℕ) (seg : List Char) (rest : List (List Char)) (ct : ℚ) :
    (1.5 : ℚ) ≤ if rest = [] then max 1.5 (td - ct) else clampedDur td tc seg := by
  by_cases hr : rest = []
  · rw [if_pos hr]
    exact le_max_left _ _
  · rw [if_neg hr]
    exact le_max_left _ _

theorem buildCues_ne_nil (td : ℚ) (tc : ℕ) :
    ∀ (segs : List (List Char)) (ct : ℚ), segs ≠ [] → buildCues td tc segs ct ≠ [] := by
  intro segs ct hs
  cases segs with
  | nil => exact absurd rfl hs
  | cons seg rest =>
    rw [buildCues_cons]
    intro hnil
    exact segCues_ne_nil seg ct _ (List.append_eq_nil.mp hnil).1

theorem buildCues_start_lb (td : ℚ) (tc : ℕ) :
    ∀ (segs : List (List Char)) (ct : ℚ) (c : Cue),
      c ∈ buildCues td tc segs ct → ct ≤ c.start := by
  intro segs
  induction segs with
  | nil => intro ct c hc; simp [buildCues] at hc
  | cons seg rest ih =>
    intro ct c hc
    rw [buildCues_cons] at hc
    have hdur := stepDur_ge td tc seg rest ct
    rcases List.mem_append.mp hc with hc | hc
    · exact segCues_start_lb seg ct _ (by linarith) c hc
    · have := ih _ c hc
      linarith

theorem buildCues_sorted (td : ℚ) (tc : ℕ) :
    ∀ (segs : List (List Char)) (ct : ℚ),
      (buildCues td tc segs ct).Pairwise fun a b => a.start ≤ b.start := by
  intro segs
  induction segs with
  | nil => intro ct; simp [buildCues]
  | cons seg rest ih =>
    intro ct
    rw [buildCues_cons]
    have hdur := stepDur_ge td tc seg rest ct
    refine List.pairwise_append.mpr ⟨segCues_sorted seg ct _ (by linarith), ih _, ?_⟩
    intro a ha b hb
    have h1 := segCues_start_ub seg ct _ (by linarith) a ha
    have h2 := buildCues_start_lb td tc rest _ b hb
    linarith

theorem buildCues_head_start (td : ℚ) (tc : ℕ) (seg : List Char)
    (rest : List (List Char)) (ct : ℚ) :
    ∀ c, (buildCues td tc (seg :: rest) ct).head? = some c → c.start = ct := by
  intro c hc
  rw [buildCues_cons] at hc
  obtain ⟨hd, tl, hseg⟩ := List.exists_cons_of_ne_nil (segCues_ne_nil seg ct
    (if rest = [] then max 1.5 (td - ct) else clampedDur td tc seg))
  rw [hseg] at hc
  simp only [List.cons_append, List.head?_cons, Option.some.injEq] at hc
  have hhd : (segCues seg ct
      (if rest = [] then max 1.5 (td - ct) else clampedDur td tc seg)).head? = some hd := by
    rw [hseg]
    rfl
  rw [← hc]
  exact segCues_head_start seg ct _ hd hhd

theorem buildCues_last_cover (td : ℚ) (tc : ℕ) :
    ∀ (segs : List (List Char)) (ct : ℚ) (lseg : List Char),
      segs.getLast? = some lseg →
      1.5 ≤ td - (ct + (segs.dropLast.map (clampedDur td tc)).sum) →
      (lseg.length ≤ 25 ∨
        1 ≤ (td - (ct + (segs.dropLast.map (clampedDur td tc)).sum)) /
          ((splitByComma lseg 25).length : ℚ)) →
      ∀ c, (buildCues td tc segs ct).getLast? = some c → c.start + c.duration = td := by
  intro segs
  induction segs with
  | nil => intro ct lseg hl; simp at hl
  | cons seg rest ih =>
    intro ct lseg hl h2 h3 c hc
    by_cases hr : rest = []
    · subst hr
      simp only [List.getLast?_singleton, Option.some.injEq] at hl
      subst hl
      have hd1 : ([seg] : List (List Char)).dropLast = [] := rfl
      rw [hd1] at h2 h3
      simp only [List.map_nil, List.sum_nil, add_zero] at h2 h3
      rw [buildCues_cons] at hc
      simp only [if_pos rfl, buildCues, List.append_nil] at hc
      have hmax : max (1.5 : ℚ) (td - ct) = td - ct := max_eq_right (by linarith)
      rw [hmax] at hc
      have := segCues_last_cover seg ct (td - ct) ?_ c hc
      · linarith
      · rcases h3 with h3 | h3
        · exact Or.inl h3
        · exact Or.inr h3
    · obtain ⟨r, rs, hrest⟩ := List.exists_cons_of_ne_nil hr
      subst hrest
      have hlr : (r :: rs).getLast? = some lseg := by
        rw [List.getLast?_cons_cons] at hl
        exact hl
      rw [List.dropLast_cons₂] at h2 h3
      simp only [List.map_cons, List.sum_cons] at h2 h3
      rw [buildCues_cons] at hc
      simp only [if_neg (List.cons_ne_nil r rs)] at hc
      rw [List.getLast?_append_of_ne_nil _
        (buildCues_ne_nil td tc (r :: rs) _ (List.cons_ne_nil r rs))] at hc
      have heq : td - (ct + (clampedDur td tc seg + ((r :: rs).dropLast.map
          (clampedDur td tc)).sum)) =
          td - (ct + clampedDur td tc seg + ((r :: rs).dropLast.map (clampedDur td tc)).sum) := by
        ring
      rw [heq] at h2 h3
      exact ih (ct + clampedDur td tc seg) lseg hlr h2 h3 c hc

theorem mergeSegsLoop_mem_ne_nil :
    ∀ (parts : List (List Char)) (cur : List Char),
      (∀ p ∈ parts, jsTrim p ≠ []) → ∀ s ∈ mergeSegsLoop parts cur, s ≠ [] := by
  intro parts
  induction parts with
  | nil =>
    intro cur _ s hs
    simp only [mergeSegsLoop] at hs
    by_cases h : jsTrim cur ≠ []
    · rw [if_pos h] at hs
      simp only [List.mem_singleton] at hs
      rw [hs]
      exact h
    · rw [if_neg h] at hs
      simp at hs
  | cons part rest ih =>
    intro cur hp s hs
    have hpart := hp part (List.mem_cons_self _ _)
    have hptail : ∀ p ∈ rest, jsTrim p ≠ [] := fun p hpm => hp p (List.mem_cons_of_mem _ hpm)
    simp only [mergeSegsLoop] at hs
    by_cases ha : part.any isSentencePunct
    · rw [if_pos ha] at hs
      by_cases hcur : cur ≠ []
      · rw [if_pos hcur] at hs
        rcases List.mem_cons.mp hs with hs | hs
        · rw [hs]
          by_cases hnl : part = ['\n']
          · exact absurd (by rw [hnl]; decide) hpart
          · rw [if_neg hnl]
            intro hnil
            have hp2 := (List.append_eq_nil.mp hnil).2
            rw [hp2] at ha
            simp [List.any] at ha
        · exact ih [] hptail s hs
      · rw [if_neg hcur] at hs
        exact ih cur hptail s hs
    · rw [if_neg ha] at hs
      exact ih (cur ++ part) hptail s hs

theorem segmentsOf_mem_ne_nil (text : List Char) : ∀ s ∈ segmentsOf text, s ≠ [] := by
  apply mergeSegsLoop_mem_ne_nil
  intro p hpm
  have := List.of_mem_filter hpm
  simp only [decide_eq_true_eq] at this
  exact List.ne_nil_of_length_pos this

theorem totalCharsOf_pos (segs : List (List Char)) (h : segs ≠ [])
    (hne : ∀ s ∈ segs, s ≠ []) : 0 < totalCharsOf segs := by
  cases segs with
  | nil => exact absurd rfl h
  | cons s rest =>
    have hs : s ≠ [] := hne s (List.mem_cons_self _ _)
    have : 0 < s.length := List.length_pos.mpr hs
    simp only [totalCharsOf, List.map_cons, List.sum_cons]
    omega

theorem generateSubtitles_eq_buildCues (text : List Char) (td : ℚ) (h1 : 0 < td)
    (h2 : segmentsOf text ≠ []) :
    generateSubtitlesFromScript text td =
      buildCues td (totalCharsOf (segmentsOf text)) (segmentsOf text) 0 := by
  have htext : text ≠ [] := by
    intro h
    rw [h] at h2
    exact h2 rfl
  have htot : totalCharsOf (segmentsOf text) ≠ 0 :=
    Nat.pos_iff_ne_zero.mp (totalCharsOf_pos _ h2 (segmentsOf_mem_ne_nil text))
  unfold generateSubtitlesFromScript
  rw [if_neg (by push_neg; exact ⟨htext, by linarith⟩), if_neg h2, if_neg htot]

theorem buildCues_dur_ge_one (td : ℚ) (tc : ℕ) :
    ∀ (segs : List (List Char)) (ct : ℚ) (c : Cue),
      c ∈ buildCues td tc segs ct → 1 ≤ c.duration := by
  intro segs
  induction segs with
  | nil => intro ct c hc; simp [buildCues] at hc
  | cons seg rest ih =>
    intro ct c hc
    rw [buildCues_cons] at hc
    have hdur := stepDur_ge td tc seg rest ct
    rcases List.mem_append.mp hc with hc | hc
    · exact segCues_duration_ge_one seg ct _ (by linarith) c hc
    · exact ih _ c hc

/-! ### Claim C2 — subtitle coverage -/

/-- The Scenario-A style sample script: two sentences, 12 + 22 characters. -/
def sampleScript : List Char :=
  "今天我们学习了勾股定理。直角三角形两条直角边的平方和等于斜边的平方。".toList

/-- The last sentence of `sampleScript`. -/
def sampleLastSeg : List Char := "直角三角形两条直角边的平方和等于斜边的平方。".toList

/-- C2 (amended).  For every script with at least one sentence segment and
every positive total duration, the cue list of `generateSubtitlesFromScript`
is non-empty, its start times are non-decreasing and its first cue starts
at 0.  The final cue ends exactly at `totalDuration` provided the time left
for the final segment (total minus the clamped allotments of the earlier
segments) is at least the 1.5 s floor, and — when the final segment is
comma-re-split because it exceeds 25 characters — the evenly divided
sub-duration is at least 1 s.  (As stated over *all* inputs the claim fails:
the 1.5 s floors can overrun `totalDuration`, see the counterexample.) -/
theorem claimC2_subtitle_coverage (text : List Char) (td : ℚ) (h1 : 0 < td)
    (h2 : segmentsOf text ≠ []) :
    generateSubtitlesFromScript text td ≠ [] ∧
    (generateSubtitlesFromScript text td).Pairwise (fun a b => a.start ≤ b.start) ∧
    (∀ c, (generateSubtitlesFromScript text td).head? = some c → c.start = 0) ∧
    ∀ lseg, (segmentsOf text).getLast? = some lseg →
      1.5 ≤ td - leadDuration td (totalCharsOf (segmentsOf text)) (segmentsOf text) →
      (lseg.length ≤ 25 ∨
        1 ≤ (td - leadDuration td (totalCharsOf (segmentsOf text)) (segmentsOf text)) /
          ((splitByComma lseg 25).length : ℚ)) →
      ∀ c, (generateSubtitlesFromScript text td).getLast? = some c →
        c.start + c.duration = td := by
  rw [generateSubtitles_eq_buildCues text td h1 h2]
  obtain ⟨seg, rest, hsegs⟩ := List.exists_cons_of_ne_nil h2
  refine ⟨?_, buildCues_sorted _ _ _ _, ?_, ?_⟩
  · exact buildCues_ne_nil _ _ _ _ h2
  · rw [hsegs]
    exact buildCues_head_start _ _ _ _ _
  · intro lseg hlast hrem hcond c hc
    have hrem0 : 1.5 ≤ td -
        (0 + ((segmentsOf text).dropLast.map
          (clampedDur td (totalCharsOf (segmentsOf text)))).sum) := by
      rw [zero_add]
      exact hrem
    have hcond0 : lseg.length ≤ 25 ∨
        1 ≤ (td - (0 + ((segmentsOf text).dropLast.map
          (clampedDur td (totalCharsOf (segmentsOf text)))).sum)) /
          ((splitByComma lseg 25).length : ℚ) := by
      rw [zero_add]
      exact hcond
    exact buildCues_last_cover td _ (segmentsOf text) 0 lseg hlast hrem0 hcond0 c hc

unseal Rat.add Rat.sub Rat.mul Rat.inv Rat.ofScientific in
/-- Witness for C2 at Scenario A's script with `totalDuration = 10`:
two cues, first at 0, last ending exactly at 10. -/
theorem claimC2_witness :
    generateSubtitlesFromScript sampleScript 10 ≠ [] ∧
    (generateSubtitlesFromScript sampleScript 10).Pairwise (fun a b => a.start ≤ b.start) ∧
    (∀ c, (generateSubtitlesFromScript sampleScript 10).head? = some c → c.start = 0) ∧
    (∀ c, (generateSubtitlesFromScript sampleScript 10).getLast? = some c →
      c.start + c.duration = 10) := by
  obtain ⟨ha, hb, hc, hd⟩ :=
    claimC2_subtitle_coverage sampleScript 10 (by norm_num) (by decide)
  exact ⟨ha, hb, hc, hd sampleLastSeg (by decide) (by decide) (by decide)⟩

unseal Rat.add Rat.sub Rat.mul Rat.inv Rat.ofScientific in
/-- Counterexample to C2 as stated: for script `"一。二。"` and
`totalDuration = 2` the final cue starts at 1.5 and lasts 1.5 s, ending at
3 ≠ 2 — the 1.5 s floors overrun the requested total duration. -/
theorem claimC2_counterexample :
    (generateSubtitlesFromScript ("一。二。".toList) 2).getLast? =
      some (Cue.mk ("二。".toList) (3 / 2) (3 / 2)) ∧
    ((3 : ℚ) / 2 + 3 / 2 ≠ 2) := by
  constructor
  · decide
  · norm_num

/-! ### Claim C3 — cue duration clamp -/

/-- A 27-character first sentence containing a comma, followed by a short one:
the first sentence is comma-re-split into two cues. -/
def cexScript : List Char := "aaaaaaaaaaaa，bbbbbbbbbbbbb。二。".toList

/-- C3 (amended).  Every cue returned by `generateSubtitlesFromScript` has
duration at least 1 second, and the per-segment allotment of every non-final
segment (`clampedDur`, computed before any comma re-split) lies in [1.5, 8].
The original [1.5, 8] bound on each emitted cue fails: a comma-re-split
segment divides its allotment evenly and floors each share at 1 s, which can
fall below 1.5 s (see the counterexample). -/
theorem claimC3_cue_durations :
    (∀ (text : List Char) (td : ℚ) (c : Cue),
        c ∈ generateSubtitlesFromScript text td → 1 ≤ c.duration) ∧
    (∀ (td : ℚ) (tc : ℕ) (seg : List Char),
        1.5 ≤ clampedDur td tc seg ∧ clampedDur td tc seg ≤ 8) := by
  constructor
  · intro text td c hc
    unfold generateSubtitlesFromScript at hc
    split at hc
    · simp at hc
    · split at hc
      · simp at hc
      · split at hc
        · simp at hc
        · exact buildCues_dur_ge_one td _ _ 0 c hc
  · intro td tc seg
    refine ⟨le_max_left _ _, ?_⟩
    have h8 : (1.5 : ℚ) ≤ 8 := by norm_num
    exact max_le h8 (min_le_right _ _)

unseal Rat.add Rat.sub Rat.mul Rat.inv Rat.ofScientific in
/-- Witness for C3: the first cue of the Scenario-A sample has duration
60/17 ≥ 1, and a concrete clamp computation lies in [1.5, 8]. -/
theorem claimC3_witness :
    (Cue.mk ("今天我们学习了勾股定理。".toList) 0 (60 / 17) ∈
      generateSubtitlesFromScript sampleScript 10 ∧
      (1 : ℚ) ≤ (Cue.mk ("今天我们学习了勾股定理。".toList) 0 (60 / 17)).duration) ∧
    (1.5 ≤ clampedDur 10 34 sampleLastSeg ∧ clampedDur 10 34 sampleLastSeg ≤ 8) := by
  refine ⟨⟨by decide, ?_⟩, claimC3_cue_durations.2 10 34 sampleLastSeg⟩
  exact claimC3_cue_durations.1 sampleScript 10 _ (by decide)

unseal Rat.add Rat.sub Rat.mul Rat.inv Rat.ofScientific in
/-- Counterexample to C3 as stated: on `cexScript` with `totalDuration = 3`
the first cue (not the final one — there are three cues) has duration
81/58 ≈ 1.397 < 1.5, outside [1.5, 8]. -/
theorem claimC3_counterexample :
    (generateSubtitlesFromScript cexScript 3).head? =
      some (Cue.mk ("aaaaaaaaaaaa，".toList) 0 (81 / 58)) ∧
    (generateSubtitlesFromScript cexScript 3).length = 3 ∧
    (81 : ℚ) / 58 < 1.5 := by
  refine ⟨by decide, by decide, by norm_num⟩

/-! ### Image prompt normalizer (`normalizeImagePrompt`, llm.js 322–334) -/

/-- Does `hay` begin with `needle`? (helper for JS `String.includes`). -/
def prefixCheck : List Char → List Char → Bool
  | [], _ => true
  | _ :: _, [] => false
  | a :: as, b :: bs => a == b && prefixCheck as bs

/-- JS `hay.includes(needle)`: `needle` occurs contiguously in `hay`. -/
def listIncludes : List Char → List Char → Bool
  | [], needle => prefixCheck needle []
  | c :: rest, needle => prefixCheck needle (c :: rest) || listIncludes rest needle

/-- ASCII lower-casing, the part of JS `toLowerCase` relevant to detecting
the literal `'zootopia'`. -/
def asciiLower (c : Char) : Char :=
  if 'A' ≤ c ∧ c ≤ 'Z' then Char.ofNat (c.toNat + 32) else c

/-- The default prompt returned for a falsy input (llm.js 325). -/
def defaultImagePrompt : List Char :=
  "疯狂动物城风格插图，迪士尼皮克斯画质，朱迪兔子在温馨明亮的教室里".toList

/-- The style tag prepended when the style is absent (llm.js 330). -/
def styleTagPre : List Char := "疯狂动物城风格插图，".toList

/-- The Chinese style-name literal checked by `prompt.includes('疯狂动物城')`. -/
def zootopiaCN : List Char := "疯狂动物城".toList

/-- The ASCII literal checked by `prompt.toLowerCase().includes('zootopia')`. -/
def zootopiaEN : List Char := "zootopia".toList

/-- The function `normalizeImagePrompt(prompt)` (llm.js 322–334). -/
def normalizeImagePrompt (prompt : List Char) : List Char :=
  if prompt = [] then defaultImagePrompt
  else if ¬(listIncludes prompt zootopiaCN ||
      listIncludes (prompt.map asciiLower) zootopiaEN) then
    styleTagPre ++ prompt
  else prompt

theorem prefixCheck_append {needle hay : List Char} (tail : List Char)
    (h : prefixCheck needle hay = true) : prefixCheck needle (hay ++ tail) = true := by
  induction needle generalizing hay with
  | nil => rfl
  | cons a as ih =>
    cases hay with
    | nil => simp [prefixCheck] at h
    | cons b bs =>
      simp only [prefixCheck, Bool.and_eq_true] at h
      simp only [List.cons_append, prefixCheck, Bool.and_eq_true]
      exact ⟨h.1, ih h.2⟩

theorem listIncludes_of_prefixCheck {hay needle : List Char}
    (h : prefixCheck needle hay = true) : listIncludes hay needle = true := by
  cases hay with
  | nil => exact h
  | cons c rest => simp [listIncludes, h]

theorem listIncludes_styleTag (p : List Char) :
    listIncludes (styleTagPre ++ p) zootopiaCN = true := by
  apply listIncludes_of_prefixCheck
  apply prefixCheck_append
  decide

/-- C9 (confirmed).  The image-prompt normalizer is idempotent — the style
tag is never duplicated — and its output always names the required visual
style (it contains `疯狂动物城`, or its lower-casing contains `zootopia`). -/
theorem claimC9_normalize_idempotent (p : List Char) :
    normalizeImagePrompt (normalizeImagePrompt p) = normalizeImagePrompt p ∧
    (listIncludes (normalizeImagePrompt p) zootopiaCN ||
      listIncludes ((normalizeImagePrompt p).map asciiLower) zootopiaEN) = true := by
  by_cases h0 : p = []
  · subst h0
    constructor
    · decide
    · decide
  · by_cases h1 : listIncludes p zootopiaCN || listIncludes (p.map asciiLower) zootopiaEN
    · have hnorm : normalizeImagePrompt p = p := by
        unfold normalizeImagePrompt
        rw [if_neg h0, if_neg (by simp [h1])]
      rw [hnorm]
      constructor
      · unfold normalizeImagePrompt
        rw [if_neg h0, if_neg (by simp [h1])]
      · exact h1
    · have hnorm : normalizeImagePrompt p = styleTagPre ++ p := by
        unfold normalizeImagePrompt
        rw [if_neg h0, if_pos (by simp [h1])]
      rw [hnorm]
      have hinc : listIncludes (styleTagPre ++ p) zootopiaCN = true := listIncludes_styleTag p
      have hne : styleTagPre ++ p ≠ [] := by
        intro hc
        exact absurd (List.append_eq_nil.mp hc).2 h0
      constructor
      · unfold normalizeImagePrompt
        rw [if_neg hne, if_neg (by simp [hinc])]
      · simp [hinc]

/-! ### Duration probing (`getAudioDuration`, asr.js 26–37 and videoSynth.js
152–162)

The external `ffprobe` invocation is modelled as an outcome oracle
`probe : Except (List Char) ℚ` (the parsed duration, or the failure). -/

/-- asr.js 26–37: on probe failure the error is logged and **rethrown**. -/
def asrGetAudioDuration (probe : Except (List Char) ℚ) : Except (List Char) ℚ :=
  match probe with
  | .ok d => .ok d
  | .error e => .error e

/-- videoSynth.js 152–162: on probe failure the fallback `5` is returned. -/
def videoSynthGetAudioDuration (probe : Except (List Char) ℚ) : ℚ :=
  match probe with
  | .ok d => d
  | .error _ => 5

/-- A concrete probe failure message. -/
def probeFailMsg : List Char := "ffprobe exited with an error".toList

/-- C7 (amended).  The videoSynth-module duration probe is total: it returns
the probed duration on success and the fallback `5` on failure, never
propagating the error.  The asr-module `getAudioDuration` — the one the
marker orchestrator actually calls at processor.js line 51 — instead
**rethrows** the probe failure (it is then caught per marker by
`processMultipleMarkers`). -/
theorem claimC7_duration_fallback (probe : Except (List Char) ℚ) :
    (∀ d, probe = .ok d → videoSynthGetAudioDuration probe = d) ∧
    (∀ e, probe = .error e → videoSynthGetAudioDuration probe = 5) ∧
    (∀ e, probe = .error e → asrGetAudioDuration probe = .error e) := by
  refine ⟨?_, ?_, ?_⟩
  · intro d hd
    rw [hd]
    rfl
  · intro e he
    rw [he]
    rfl
  · intro e he
    rw [he]
    rfl

/-- Witness for C7 at a concrete success and a concrete failure. -/
theorem claimC7_witness :
    videoSynthGetAudioDuration (.ok 7) = 7 ∧
    videoSynthGetAudioDuration (.error probeFailMsg) = 5 := by
  refine ⟨(claimC7_duration_fallback (.ok 7)).1 7 rfl, ?_⟩
  exact (claimC7_duration_fallback (.error probeFailMsg)).2.1 probeFailMsg rfl

/-- Counterexample to C7 as stated: the `getAudioDuration` used by the
orchestrator (asr.js) *does* throw — a failing probe yields an error result,
not the fallback 5. -/
theorem claimC7_counterexample :
    asrGetAudioDuration (.error probeFailMsg) = .error probeFailMsg ∧
    asrGetAudioDuration (.error probeFailMsg) ≠ .ok 5 := by
  exact ⟨rfl, by simp [asrGetAudioDuration]⟩

/-! ### Author-provided subtitle rescaling (`synthesizeVideo`, videoSynth.js
417–431) -/

/-- One author-provided subtitle entry `{text, start, duration}` as produced
by the language model (fields may be missing). -/
structure AuthorSub where
  text : List Char
  start : Option ℚ
  duration : Option ℚ
deriving DecidableEq

/-- JS `(sub.duration || 2)`: a missing or zero duration counts as 2 s. -/
def jsDurOrTwo : Option ℚ → ℚ
  | none => 2
  | some d => if d = 0 then 2 else d

/-- Line 419: `slide.subtitles.reduce((sum, sub) => sum + (sub.duration || 2), 0)`. -/
def totalSubDuration (subs : List AuthorSub) : ℚ :=
  (subs.map fun s => jsDurOrTwo s.duration).sum

/-- Line 420: `totalSubDuration > 0 ? result.duration / totalSubDuration : 1`. -/
def authorTimeScale (subs : List AuthorSub) (realizedDuration : ℚ) : ℚ :=
  if 0 < totalSubDuration subs then realizedDuration / totalSubDuration subs else 1

/-- Lines 421–431: the `slide.subtitles.forEach` loop, carrying
`subCurrentTime` and pushing `{text, start: currentTime + subCurrentTime,
duration: (sub.duration || 2) * timeScale}`. -/
def rescaleLoop (timeScale currentTime : ℚ) : List AuthorSub → ℚ → List Cue
  | [], _ => []
  | s :: rest, subCurrentTime =>
    Cue.mk s.text (currentTime + subCurrentTime) (jsDurOrTwo s.duration * timeScale) ::
      rescaleLoop timeScale currentTime rest
        (subCurrentTime + jsDurOrTwo s.duration * timeScale)

/-- The author-subtitle branch of `synthesizeVideo` (lines 417–431). -/
def rescaleAuthorSubs (subs : List AuthorSub) (realizedDuration currentTime : ℚ) :
    List Cue :=
  rescaleLoop (authorTimeScale subs realizedDuration) currentTime subs 0

theorem rescaleLoop_dur_sum (timeScale currentTime : ℚ) :
    ∀ (subs : List AuthorSub) (sct : ℚ),
      ((rescaleLoop timeScale currentTime subs sct).map Cue.duration).sum =
        (subs.map fun s => jsDurOrTwo s.duration).sum * timeScale := by
  intro subs
  induction subs with
  | nil => intro sct; simp [rescaleLoop]
  | cons s rest ih =>
    intro sct
    simp only [rescaleLoop, List.map_cons, List.sum_cons, ih]
    ring

theorem totalSubDuration_all_default (subs : List AuthorSub)
    (hzero : ∀ s ∈ subs, s.duration = none ∨ s.duration = some 0) :
    totalSubDuration subs = 2 * (subs.length : ℚ) := by
  induction subs with
  | nil => simp [totalSubDuration]
  | cons s rest ih =>
    have hs : jsDurOrTwo s.duration = 2 := by
      rcases hzero s (List.mem_cons_self _ _) with h | h
      · rw [h]; rfl
      · rw [h]; simp [jsDurOrTwo]
    have hrest := ih fun x hx => hzero x (List.mem_cons_of_mem _ hx)
    simp only [totalSubDuration, List.map_cons, List.sum_cons] at hrest ⊢
    rw [hs, hrest]
    push_cast [List.length_cons]
    ring

/-- C8 (amended).  When a slide has no script but carries author subtitles:
each missing-or-zero duration is first replaced by the 2 s default
(`sub.duration || 2`); whenever every defaulted duration is positive (which
holds for all non-negative author durations, zero and missing included), the
rescaled durations sum exactly to the realized audio duration.  When all
author durations are zero or missing, the defaulted total is `2·count` — not
zero — so the scale factor is `realized / (2·count)`, not the claimed
default of 1.  (The `timeScale = 1` branch fires only for a non-positive
defaulted total, which requires negative author durations.) -/
theorem claimC8_author_rescale (subs : List AuthorSub) (realizedDuration currentTime : ℚ)
    (hne : subs ≠ []) :
    ((∀ s ∈ subs, 0 < jsDurOrTwo s.duration) →
      ((rescaleAuthorSubs subs realizedDuration currentTime).map Cue.duration).sum =
        realizedDuration) ∧
    ((∀ s ∈ subs, s.duration = none ∨ s.duration = some 0) →
      authorTimeScale subs realizedDuration =
        realizedDuration / (2 * (subs.length : ℚ))) := by
  constructor
  · intro hpos
    have htot : 0 < totalSubDuration subs := by
      obtain ⟨s, rest, hsr⟩ := List.exists_cons_of_ne_nil hne
      subst hsr
      have h1 : 0 < jsDurOrTwo s.duration := hpos s (List.mem_cons_self _ _)
      have h2 : 0 ≤ ((rest.map fun s => jsDurOrTwo s.duration)).sum := by
        apply List.sum_nonneg
        intro x hx
        obtain ⟨y, hy, hxy⟩ := List.mem_map.mp hx
        have := hpos y (List.mem_cons_of_mem _ hy)
        rw [← hxy]
        linarith
      simp only [totalSubDuration, List.map_cons, List.sum_cons]
      linarith
    unfold rescaleAuthorSubs
    rw [rescaleLoop_dur_sum]
    unfold authorTimeScale
    rw [if_pos htot]
    have : (subs.map fun s => jsDurOrTwo s.duration).sum = totalSubDuration subs := rfl
    rw [this, mul_div_cancel₀ _ (ne_of_gt htot)]
  · intro hzero
    have htot : totalSubDuration subs = 2 * (subs.length : ℚ) :=
      totalSubDuration_all_default subs hzero
    have hlen : 0 < (subs.length : ℚ) := by
      have : 0 < subs.length := List.length_pos.mpr hne
      exact_mod_cast this
    unfold authorTimeScale
    rw [if_pos (by rw [htot]; linarith), htot]

/-- Author subtitles with ordinary durations (3 s and missing). -/
def subsSample : List AuthorSub :=
  [AuthorSub.mk ("第一段".toList) (some 0) (some 3),
   AuthorSub.mk ("第二段".toList) none none]

/-- Author subtitles whose durations are all zero. -/
def subsAllZero : List AuthorSub :=
  [AuthorSub.mk ("甲".toList) (some 0) (some 0),
   AuthorSub.mk ("乙".toList) (some 0) (some 0)]

unseal Rat.add Rat.sub Rat.mul Rat.inv Rat.ofScientific in
/-- Witness for C8: with defaulted durations 3 and 2 and realized duration 9
the rescaled durations sum to exactly 9; with all-zero durations and realized
duration 10 the scale factor is `10 / (2·2)`. -/
theorem claimC8_witness :
    ((rescaleAuthorSubs subsSample 9 0).map Cue.duration).sum = 9 ∧
    authorTimeScale subsAllZero 10 = 10 / (2 * (subsAllZero.length : ℚ)) := by
  constructor
  · exact (claimC8_author_rescale subsSample 9 0 (by decide)).1 (by decide)
  · exact (claimC8_author_rescale subsAllZero 10 0 (by decide)).2 (by decide)

unseal Rat.add Rat.sub Rat.mul Rat.inv Rat.ofScientific in
/-- Counterexample to C8 as stated: `subsAllZero` has every author duration
zero, yet the computed rescale factor for realized duration 10 is
`10/4 = 5/2`, not the claimed default of 1 — the `|| 2` default makes the
total `2·count`, never zero. -/
theorem claimC8_counterexample :
    authorTimeScale subsAllZero 10 = 5 / 2 ∧ (5 / 2 : ℚ) ≠ 1 := by
  constructor
  · decide
  · norm_num

/-! ### Claim C10 — subtitle priority: marker view-model vs burned-in video -/

/-- The `subtitles` field of the per-slide view-model: either the (possibly
absent) author value kept unchanged, or cues derived from the script. -/
inductive SubtitlesView where
  | kept : Option (List AuthorSub) → SubtitlesView
  | derived : List Cue → SubtitlesView
deriving DecidableEq

/-- processor.js 241–245: derive subtitles from the script and the realized
audio duration only when the author list is missing or empty (and the script
and the audio duration are truthy); otherwise keep the author value. -/
def viewModelSubtitles (subs : Option (List AuthorSub)) (script : List Char)
    (audioDurationMs : Option ℚ) : SubtitlesView :=
  match audioDurationMs with
  | some d =>
    if (subs = none ∨ subs = some []) ∧ script ≠ [] ∧ d ≠ 0 then
      .derived (generateSubtitlesFromScript script (d / 1000))
    else .kept subs
  | none => .kept subs

/-- Which source the burned-in video subtitles come from. -/
inductive VideoSubSource where
  | fromScript
  | fromAuthor
  | fromCaption
  | noSubs
deriving DecidableEq

/-- videoSynth.js 406–439: the subtitle-collection branch of
`synthesizeVideo` — script-derived cues first, then author-provided
(rescaled) cues, then the single caption, else nothing. -/
def videoSubtitleSource (script : List Char) (subs : Option (List AuthorSub))
    (subtitle : List Char) : VideoSubSource :=
  if script ≠ [] then .fromScript
  else
    match subs with
    | some l =>
      if l.length > 0 then .fromAuthor
      else if subtitle ≠ [] then .fromCaption
      else .noSubs
    | none => if subtitle ≠ [] then .fromCaption else .noSubs

/-- C10 (confirmed).  In the marker result's view-model a non-empty
author-provided subtitle list is kept unchanged, and script-derived cues are
used only when the author list is absent or empty (with truthy script and
audio duration); in the burned-in video path the priority is reversed — a
non-empty script always wins, even over a non-empty author list. -/
theorem claimC10_subtitle_priority (subs : Option (List AuthorSub))
    (script subtitle : List Char) (audioDurationMs : Option ℚ) :
    (∀ l, subs = some l → l ≠ [] →
      viewModelSubtitles subs script audioDurationMs = .kept (some l)) ∧
    ((subs = none ∨ subs = some []) → ∀ d, audioDurationMs = some d → d ≠ 0 →
      script ≠ [] →
      viewModelSubtitles subs script audioDurationMs =
        .derived (generateSubtitlesFromScript script (d / 1000))) ∧
    (script ≠ [] → videoSubtitleSource script subs subtitle = .fromScript) := by
  refine ⟨?_, ?_, ?_⟩
  · intro l hl hlne
    subst hl
    cases audioDurationMs with
    | none => rfl
    | some d =>
      rw [show viewModelSubtitles (some l) script (some d) =
          (if (some l = none ∨ some l = some []) ∧ script ≠ [] ∧ d ≠ 0 then
            SubtitlesView.derived (generateSubtitlesFromScript script (d / 1000))
          else SubtitlesView.kept (some l)) from rfl]
      rw [if_neg]
      intro ⟨hor, _, _⟩
      rcases hor with h | h
      · exact Option.noConfusion h
      · exact hlne (Option.some.inj h)
  · intro hempty d hd hdne hscript
    subst hd
    rw [show viewModelSubtitles subs script (some d) =
        (if (subs = none ∨ subs = some []) ∧ script ≠ [] ∧ d ≠ 0 then
          SubtitlesView.derived (generateSubtitlesFromScript script (d / 1000))
        else SubtitlesView.kept subs) from rfl]
    rw [if_pos ⟨hempty, hscript, hdne⟩]
  · intro hscript
    unfold videoSubtitleSource
    rw [if_pos hscript]

/-- Witness for C10: a non-empty author list is kept even with a non-empty
script; an absent author list with script `"讲解。"` and 5000 ms audio yields
derived cues; and the video path uses the script even when the author list is
non-empty. -/
theorem claimC10_witness :
    viewModelSubtitles (some subsSample) ("讲解。".toList) (some 5000) =
      .kept (some subsSample) ∧
    viewModelSubtitles none ("讲解。".toList) (some 5000) =
      .derived (generateSubtitlesFromScript ("讲解。".toList) (5000 / 1000)) ∧
    videoSubtitleSource ("讲解。".toList) (some subsSample) ("要点".toList) =
      .fromScript := by
  refine ⟨?_, ?_, ?_⟩
  · exact (claimC10_subtitle_priority (some subsSample) ("讲解。".toList)
      ("要点".toList) (some 5000)).1 subsSample rfl (by decide)
  · exact (claimC10_subtitle_priority none ("讲解。".toList)
      ("要点".toList) (some 5000)).2.1 (Or.inl rfl) 5000 rfl (by decide) (by decide)
  · exact (claimC10_subtitle_priority (some subsSample) ("讲解。".toList)
      ("要点".toList) (some 5000)).2.2 (by decide)

/-! ### Claim C1 — marker batch isolation (`processMultipleMarkers`,
processor.js 294–343)

`processTimeMarker` is a chain of awaited external calls; its outcome for
marker index `i` at time `t` is modelled by an oracle
`run : ℕ → ℚ → Except (List Char) α` (`α` being the per-marker result
record).  The `try`/`catch` in the loop body becomes a `match` on that
outcome, so the embedded batch function is total — it always produces a
result list ("always resolves"). -/

/-- One entry of the result array: `{markerTime, ...result}` on success,
`{markerTime, success: false, error}` on failure. -/
inductive MarkerEntry (α : Type) where
  | success : ℚ → α → MarkerEntry α
  | failure : ℚ → List Char → MarkerEntry α
deriving DecidableEq

/-- The `for (let i = 0; i < total; i++)` loop of `processMultipleMarkers`,
with `i` as the running marker index. -/
def processMarkersLoop {α : Type} (run : ℕ → ℚ → Except (List Char) α) :
    ℕ → List ℚ → List (MarkerEntry α)
  | _, [] => []
  | i, t :: rest =>
    (match run i t with
     | .ok r => MarkerEntry.success t r
     | .error e => MarkerEntry.failure t e) :: processMarkersLoop run (i + 1) rest

/-- The function `processMultipleMarkers(audioFilePath, markerTimes, …)`
(processor.js 294–343), with the per-marker work abstracted by `run`. -/
def processMultipleMarkers {α : Type} (run : ℕ → ℚ → Except (List Char) α)
    (markerTimes : List ℚ) : List (MarkerEntry α) :=
  processMarkersLoop run 0 markerTimes

theorem processMarkersLoop_length {α : Type} (run : ℕ → ℚ → Except (List Char) α) :
    ∀ (markerTimes : List ℚ) (i : ℕ),
      (processMarkersLoop run i markerTimes).length = markerTimes.length := by
  intro markerTimes
  induction markerTimes with
  | nil => intro i; rfl
  | cons t rest ih =>
    intro i
    simp only [processMarkersLoop, List.length_cons, ih]

theorem processMarkersLoop_get {α : Type} (run : ℕ → ℚ → Except (List Char) α) :
    ∀ (markerTimes : List ℚ) (k i : ℕ) (t : ℚ), markerTimes.get? i = some t →
      (processMarkersLoop run k markerTimes).get? i =
        some (match run (k + i) t with
              | .ok r => MarkerEntry.success t r
              | .error e => MarkerEntry.failure t e) := by
  intro markerTimes
  induction markerTimes with
  | nil => intro k i t ht; simp at ht
  | cons t0 rest ih =>
    intro k i t ht
    cases i with
    | zero =>
      simp only [List.get?_cons_zero, Option.some.injEq] at ht
      subst ht
      simp only [processMarkersLoop, List.get?_cons_zero, Nat.add_zero]
    | succ j =>
      simp only [List.get?_cons_succ] at ht
      have hrec := ih (k + 1) j t ht
      have harg : k + 1 + j = k + (j + 1) := by omega
      rw [harg] at hrec
      simp only [processMarkersLoop, List.get?_cons_succ]
      exact hrec

/-- C1 (confirmed).  For every per-marker outcome oracle and every list of N
marker times, the batch function returns a list of exactly N entries in
marker order; entry `i` is the failure placeholder `{markerTime, success:
false, error}` exactly when marker `i`'s processing throws, and every other
entry is that marker's own success result, unaffected by the failures. -/
theorem claimC1_marker_isolation {α : Type} (run : ℕ → ℚ → Except (List Char) α)
    (markerTimes : List ℚ) :
    (processMultipleMarkers run markerTimes).length = markerTimes.length ∧
    ∀ i t, markerTimes.get? i = some t →
      (processMultipleMarkers run markerTimes).get? i =
        some (match run i t with
              | .ok r => MarkerEntry.success t r
              | .error e => MarkerEntry.failure t e) := by
  constructor
  · exact processMarkersLoop_length run markerTimes 0
  · intro i t ht
    have := processMarkersLoop_get run markerTimes 0 i t ht
    simpa using this

/-- An oracle that fails exactly at marker index 1 (Scenario D). -/
def runFailAt1 : ℕ → ℚ → Except (List Char) ℕ :=
  fun i _ => if i = 1 then .error ("extraction failed".toList) else .ok i

/-- Witness for C1 at 3 markers with the middle one failing: 3 entries, the
successes at positions 0 and 2 and the failure placeholder at position 1. -/
theorem claimC1_witness :
    (processMultipleMarkers runFailAt1 [100, 200, 300]).length = 3 ∧
    (processMultipleMarkers runFailAt1 [100, 200, 300]).get? 0 =
      some (MarkerEntry.success 100 0) ∧
    (processMultipleMarkers runFailAt1 [100, 200, 300]).get? 1 =
      some (MarkerEntry.failure 200 ("extraction failed".toList)) ∧
    (processMultipleMarkers runFailAt1 [100, 200, 300]).get? 2 =
      some (MarkerEntry.success 300 2) := by
  obtain ⟨hlen, hget⟩ := claimC1_marker_isolation runFailAt1 [100, 200, 300]
  refine ⟨hlen, ?_, ?_, ?_⟩
  · exact hget 0 100 rfl
  · exact hget 1 200 rfl
  · exact hget 2 300 rfl

/-! ### Claim C5 — transcription chunk order (`transcribeAudio`, asr.js
150–240)

Each chunk's recognition outcome is an oracle `asr : ℕ → Except (List Char)
(List Char)` (recognized text — possibly empty for a silent chunk — or a
failure).  Chunks are dispatched in concurrent batches of 3; since every
result is tagged with its original index and the final array is sorted by
index, the completion order is irrelevant — it is modelled here as an
arbitrary permutation `arrival` of the chunk indices. -/

/-- One per-chunk result `{index, text, success}` (asr.js 203–218). -/
structure ChunkResult where
  index : ℕ
  text : List Char
  success : Bool
deriving DecidableEq

/-- The failure placeholder `` `[片段 ${index + 1} 识别失败]` `` (asr.js 216). -/
def chunkPlaceholder (i : ℕ) : List Char :=
  "[片段 ".toList ++ (Nat.repr (i + 1)).toList ++ " 识别失败]".toList

/-- The function `processSegment` (asr.js 188–225): recognized text on success, the
placeholder (with `success: false`) on failure — a chunk failure never
propagates. -/
def processSegmentResult (asr : ℕ → Except (List Char) (List Char)) (i : ℕ) :
    ChunkResult :=
  match asr i with
  | .ok t => ChunkResult.mk i t true
  | .error _ => ChunkResult.mk i (chunkPlaceholder i) false

/-- asr.js 160–162: `segmentCount = Math.ceil(duration / 60)`. -/
def segmentCountOf (startTime endTime : ℚ) : ℕ :=
  (Int.ceil ((endTime - startTime) / 60)).toNat

/-- The comparator `(a, b) => a.index - b.index`. -/
def chunkLe (a b : ChunkResult) : Bool := a.index ≤ b.index

/-- The function `transcribeAudio` (asr.js 150–240) with the loop over batches replaced
by the arrival order `arrival` of the chunk indices: collect the per-chunk
results, sort them by index and join the texts with newlines. -/
def transcribeAudio (asr : ℕ → Except (List Char) (List Char))
    (startTime endTime : ℚ) (arrival : List ℕ) : List Char :=
  List.intercalate ['\n']
    (((arrival.map (processSegmentResult asr)).mergeSort chunkLe).map ChunkResult.text)

theorem processSegmentResult_index (asr : ℕ → Except (List Char) (List Char))
    (i : ℕ) : (processSegmentResult asr i).index = i := by
  unfold processSegmentResult
  cases asr i <;> rfl

theorem chunkResults_map_index_eq {mk : ℕ → ChunkResult}
    (hidx : ∀ i, (mk i).index = i) :
    ∀ (xs ys : List ChunkResult),
      xs.map ChunkResult.index = ys.map ChunkResult.index →
      (∀ x ∈ xs, x = mk x.index) → (∀ y ∈ ys, y = mk y.index) → xs = ys := by
  intro xs
  induction xs with
  | nil =>
    intro ys hmap _ _
    cases ys with
    | nil => rfl
    | cons y ys => simp at hmap
  | cons x xs ih =>
    intro ys hmap hx hy
    cases ys with
    | nil => simp at hmap
    | cons y ys =>
      simp only [List.map_cons, List.cons.injEq] at hmap
      have hx0 : x = mk x.index := hx x (List.mem_cons_self _ _)
      have hy0 : y = mk y.index := hy y (List.mem_cons_self _ _)
      have hxy : x = y := by
        rw [hx0, hy0, hmap.1]
      rw [hxy, ih ys hmap.2 (fun a ha => hx a (List.mem_cons_of_mem _ ha))
        (fun a ha => hy a (List.mem_cons_of_mem _ ha))]

theorem sortedChunks_eq (asr : ℕ → Except (List Char) (List Char)) (n : ℕ)
    (arrival : List ℕ) (hperm : arrival.Perm (List.range n)) :
    (arrival.map (processSegmentResult asr)).mergeSort chunkLe =
      (List.range n).map (processSegmentResult asr) := by
  have hidx := processSegmentResult_index asr
  have hpermAll : ((arrival.map (processSegmentResult asr)).mergeSort chunkLe).Perm
      ((List.range n).map (processSegmentResult asr)) :=
    (List.mergeSort_perm _ _).trans (hperm.map _)
  have hs1 : ((arrival.map (processSegmentResult asr)).mergeSort chunkLe).Pairwise
      fun a b => chunkLe a b := by
    apply List.sorted_mergeSort
    · intro a b c hab hbc
      simp only [chunkLe, decide_eq_true_eq] at hab hbc ⊢
      omega
    · intro a b
      simp only [chunkLe]
      rcases Nat.le_total a.index b.index with h | h
      · simp [h]
      · simp [h]
  have hs2 : (((List.range n).map (processSegmentResult asr)).map
      ChunkResult.index).Sorted (· ≤ ·) := by
    rw [List.map_map]
    have : (ChunkResult.index ∘ processSegmentResult asr) = id := by
      funext i
      simp [hidx]
    rw [this, List.map_id]
    exact (List.pairwise_lt_range n).imp Nat.le_of_lt
  have hs1m : (((arrival.map (processSegmentResult asr)).mergeSort chunkLe).map
      ChunkResult.index).Sorted (· ≤ ·) := by
    rw [List.Sorted, List.pairwise_map]
    apply hs1.imp
    intro a b h
    simpa [chunkLe] using h
  have hmapeq : (((arrival.map (processSegmentResult asr)).mergeSort chunkLe).map
      ChunkResult.index) =
      (((List.range n).map (processSegmentResult asr)).map ChunkResult.index) :=
    List.eq_of_perm_of_sorted (hpermAll.map _) hs1m hs2
  apply chunkResults_map_index_eq hidx _ _ hmapeq
  · intro x hx
    have hx2 : x ∈ arrival.map (processSegmentResult asr) :=
      (List.mergeSort_perm _ _).subset hx
    obtain ⟨i, _, hi⟩ := List.mem_map.mp hx2
    rw [← hi, hidx]
  · intro y hy
    obtain ⟨i, _, hi⟩ := List.mem_map.mp hy
    rw [← hi, hidx]

/-- C5 (confirmed).  For every chunk-outcome oracle and every completion
order (any permutation of the `ceil(duration/60)` chunk indices), the
transcript equals the per-chunk texts in index order joined with newlines;
a failed chunk contributes its placeholder `[片段 N 识别失败]` at its own
index and never aborts the transcription. -/
theorem claimC5_chunk_order (asr : ℕ → Except (List Char) (List Char))
    (startTime endTime : ℚ) (arrival : List ℕ)
    (hperm : arrival.Perm (List.range (segmentCountOf startTime endTime))) :
    transcribeAudio asr startTime endTime arrival =
      List.intercalate ['\n']
        ((List.range (segmentCountOf startTime endTime)).map fun i =>
          match asr i with
          | .ok t => t
          | .error _ => chunkPlaceholder i) := by
  unfold transcribeAudio
  rw [sortedChunks_eq asr _ arrival hperm, List.map_map]
  congr 1
  apply List.map_congr_left
  intro i _
  simp only [Function.comp_apply, processSegmentResult]
  cases asr i <;> rfl

/-- A chunk oracle failing exactly at index 1. -/
def asrSample : ℕ → Except (List Char) (List Char) :=
  fun i => if i = 1 then .error ("http 500".toList) else .ok (Nat.repr i).toList

unseal Rat.add Rat.sub Rat.mul Rat.inv Rat.ofScientific List.merge List.mergeSort in
/-- Witness for C5: a 150 s window gives 3 chunks; with completion order
[2, 0, 1] and chunk 1 failing, the transcript is the index-ordered texts
`0`, placeholder, `2` joined by newlines. -/
theorem claimC5_witness :
    ([2, 0, 1] : List ℕ).Perm (List.range (segmentCountOf 0 150)) ∧
    transcribeAudio asrSample 0 150 [2, 0, 1] =
      "0\n[片段 2 识别失败]\n2".toList := by
  have hperm : ([2, 0, 1] : List ℕ).Perm (List.range (segmentCountOf 0 150)) := by
    decide
  refine ⟨hperm, ?_⟩
  rw [claimC5_chunk_order asrSample 0 150 [2, 0, 1] hperm]
  decide

/-! ### Claim C6 — TTS long-text splitter (`splitTextByPunctuation`, tts.js
236–284)

Byte lengths use the UTF-8 encoding of each scalar value; all texts
considered are BMP (`utf8Len c ≤ 3`), where character counts agree with
JavaScript's UTF-16 `length`. -/

/-- UTF-8 byte count of one character. -/
def utf8Len (c : Char) : ℕ :=
  if c.toNat < 0x80 then 1
  else if c.toNat < 0x800 then 2
  else if c.toNat < 0x10000 then 3
  else 4

/-- The byte count `Buffer.from(s, 'utf-8').length`. -/
def utf8ByteLength (s : List Char) : ℕ := (s.map utf8Len).sum

/-- The sentence-accumulation loop (tts.js 243–257): greedily pack split
parts into ≤ `maxLength`-character segments, pushing the trimmed segment
when the next part does not fit. -/
def accumLoop (maxLength : ℕ) : List (List Char) → List Char → List (List Char)
  | [], currentSegment =>
    if currentSegment ≠ [] then [jsTrim currentSegment] else []
  | sentence :: rest, currentSegment =>
    if currentSegment.length + sentence.length ≤ maxLength then
      accumLoop maxLength rest (currentSegment ++ sentence)
    else
      if currentSegment ≠ [] then
        jsTrim currentSegment :: accumLoop maxLength rest sentence
      else accumLoop maxLength rest sentence

/-- JS `segment.lastIndexOf('，', pos)`: the largest index `p ≤ pos` holding
a full-width comma, if any. -/
def lastCommaLe (seg : List Char) : ℕ → Option ℕ
  | 0 => if seg.get? 0 = some '，' then some 0 else none
  | p + 1 => if seg.get? (p + 1) = some '，' then some (p + 1) else lastCommaLe seg p

/-- The end position of one force-split step (tts.js 266–274):
`start + maxLength`, moved back to just after the nearest preceding
full-width comma when one lies strictly after `start`. -/
def forceEndIndex (seg : List Char) (maxLength start : ℕ) : ℕ :=
  if start + maxLength < seg.length then
    match lastCommaLe seg (start + maxLength) with
    | some p => if start < p then p + 1 else start + maxLength
    | none => start + maxLength
  else start + maxLength

/-- The `while (start < segment.length)` force-split loop (tts.js 264–277),
with an explicit fuel (`segment.length + 1` at the call site) for
termination. -/
def forceSplitLoop (seg : List Char) (maxLength : ℕ) : ℕ → ℕ → List (List Char)
  | _, 0 => []
  | start, fuel + 1 =>
    if start < seg.length then
      jsTrim ((seg.drop start).take (forceEndIndex seg maxLength start - start)) ::
        forceSplitLoop seg maxLength (forceEndIndex seg maxLength start) fuel
    else []

/-- The function `splitTextByPunctuation(text, maxLength)` (tts.js 236–284): split into
sentence runs, greedily accumulate into ≤ `maxLength`-character segments,
force-split any segment whose UTF-8 byte length still exceeds 1000, and drop
empty strings. -/
def splitTextByPunctuation (text : List Char) (maxLength : ℕ) : List (List Char) :=
  (((accumLoop maxLength ((splitKeepRuns isSentencePunct text).filter fun s => s ≠ []) []).map
      fun segment =>
        if 1000 < utf8ByteLength segment then
          forceSplitLoop segment maxLength 0 (segment.length + 1)
        else [segment]).flatten).filter fun s => s ≠ []

theorem dropJsSpace_subset : ∀ (s : List Char) (c : Char), c ∈ dropJsSpace s → c ∈ s := by
  intro s
  induction s with
  | nil => intro c hc; simp [dropJsSpace] at hc
  | cons a rest ih =>
    intro c hc
    simp only [dropJsSpace] at hc
    by_cases h : isJsSpace a
    · rw [if_pos h] at hc
      exact List.mem_cons_of_mem _ (ih c hc)
    · rw [if_neg h] at hc
      exact hc

theorem jsTrim_subset (s : List Char) (c : Char) (hc : c ∈ jsTrim s) : c ∈ s := by
  unfold jsTrim at hc
  rw [List.mem_reverse] at hc
  have h1 := dropJsSpace_subset _ _ hc
  rw [List.mem_reverse] at h1
  exact dropJsSpace_subset _ _ h1

theorem dropJsSpace_length_le : ∀ s : List Char, (dropJsSpace s).length ≤ s.length := by
  intro s
  induction s with
  | nil => simp [dropJsSpace]
  | cons a rest ih =>
    simp only [dropJsSpace]
    by_cases h : isJsSpace a
    · rw [if_pos h]
      simp only [List.length_cons]
      omega
    · rw [if_neg h]

theorem jsTrim_length_le (s : List Char) : (jsTrim s).length ≤ s.length := by
  unfold jsTrim
  rw [List.length_reverse]
  calc (dropJsSpace (dropJsSpace s).reverse).length
      ≤ (dropJsSpace s).reverse.length := dropJsSpace_length_le _
    _ = (dropJsSpace s).length := List.length_reverse _
    _ ≤ s.length := dropJsSpace_length_le _

theorem dropJsSpace_eq_self (s : List Char) (h : ∀ c ∈ s, isJsSpace c = false) :
    dropJsSpace s = s := by
  cases s with
  | nil => rfl
  | cons a rest =>
    simp only [dropJsSpace]
    rw [if_neg]
    simp [h a (List.mem_cons_self _ _)]

theorem jsTrim_eq_self (s : List Char) (h : ∀ c ∈ s, isJsSpace c = false) :
    jsTrim s = s := by
  unfold jsTrim
  rw [dropJsSpace_eq_self s h, dropJsSpace_eq_self _ (by
    intro c hc
    exact h c (List.mem_reverse.mp hc)), List.reverse_reverse]

theorem splitRunsLoop_flatten (sep : Char → Bool) :
    ∀ (l acc : List Char) (inSep : Bool),
      (splitRunsLoop sep acc inSep l).flatten = acc.reverse ++ l := by
  intro l
  induction l with
  | nil =>
    intro acc inSep
    cases inSep <;> simp [splitRunsLoop]
  | cons c rest ih =>
    intro acc inSep
    simp only [splitRunsLoop]
    by_cases hs : sep c
    · rw [if_pos hs]
      cases inSep with
      | true =>
        rw [if_pos rfl, ih]
        simp
      | false =>
        simp only [Bool.false_eq_true, if_neg, ite_false]
        rw [List.flatten_cons, ih]
        simp
    · rw [if_neg hs]
      cases inSep with
      | true =>
        simp only [ite_true]
        rw [List.flatten_cons, ih]
        simp
      | false =>
        simp only [Bool.false_eq_true, ite_false]
        rw [ih]
        simp

theorem flatten_filter_ne_nil : ∀ l : List (List Char),
    ((l.filter fun s => s ≠ []).flatten) = l.flatten := by
  intro l
  induction l with
  | nil => rfl
  | cons s rest ih =>
    rw [List.filter_cons]
    by_cases h : s = []
    · subst h
      rw [if_neg (by simp), List.flatten_cons, List.nil_append, ih]
    · rw [if_pos (by simp [h]), List.flatten_cons, List.flatten_cons, ih]

theorem accumLoop_mem_subset (ml : ℕ) :
    ∀ (parts : List (List Char)) (cur seg : List Char),
      seg ∈ accumLoop ml parts cur → ∀ c ∈ seg, c ∈ cur ∨ c ∈ parts.flatten := by
  intro parts
  induction parts with
  | nil =>
    intro cur seg hseg c hc
    simp only [accumLoop] at hseg
    by_cases h : cur ≠ []
    · rw [if_pos h] at hseg
      simp only [List.mem_singleton] at hseg
      subst hseg
      exact Or.inl (jsTrim_subset _ _ hc)
    · rw [if_neg h] at hseg
      simp at hseg
  | cons p rest ih =>
    intro cur seg hseg c hc
    simp only [accumLoop] at hseg
    by_cases h1 : cur.length + p.length ≤ ml
    · rw [if_pos h1] at hseg
      rcases ih _ seg hseg c hc with h | h
      · rcases List.mem_append.mp h with h | h
        · exact Or.inl h
        · exact Or.inr (by rw [List.flatten_cons]; exact List.mem_append.mpr (Or.inl h))
      · exact Or.inr (by rw [List.flatten_cons]; exact List.mem_append.mpr (Or.inr h))
    · rw [if_neg h1] at hseg
      by_cases h2 : cur ≠ []
      · rw [if_pos h2] at hseg
        rcases List.mem_cons.mp hseg with h | h
        · subst h
          exact Or.inl (jsTrim_subset _ _ hc)
        · rcases ih _ seg h c hc with h | h
          · exact Or.inr (by rw [List.flatten_cons]; exact List.mem_append.mpr (Or.inl h))
          · exact Or.inr (by rw [List.flatten_cons]; exact List.mem_append.mpr (Or.inr h))
      · rw [if_neg h2] at hseg
        rcases ih _ seg hseg c hc with h | h
        · exact Or.inr (by rw [List.flatten_cons]; exact List.mem_append.mpr (Or.inl h))
        · exact Or.inr (by rw [List.flatten_cons]; exact List.mem_append.mpr (Or.inr h))

theorem accumLoop_flatten (ml : ℕ) :
    ∀ (parts : List (List Char)) (cur : List Char),
      (∀ c ∈ cur, isJsSpace c = false) →
      (∀ p ∈ parts, ∀ c ∈ p, isJsSpace c = false) →
      (accumLoop ml parts cur).flatten = cur ++ parts.flatten := by
  intro parts
  induction parts with
  | nil =>
    intro cur hcur _
    simp only [accumLoop]
    by_cases h : cur ≠ []
    · rw [if_pos h]
      simp [jsTrim_eq_self cur hcur]
    · rw [if_neg h]
      push_neg at h
      simp [h]
  | cons p rest ih =>
    intro cur hcur hparts
    have hp : ∀ c ∈ p, isJsSpace c = false := hparts p (List.mem_cons_self _ _)
    have hrest : ∀ q ∈ rest, ∀ c ∈ q, isJsSpace c = false :=
      fun q hq => hparts q (List.mem_cons_of_mem _ hq)
    simp only [accumLoop]
    by_cases h1 : cur.length + p.length ≤ ml
    · rw [if_pos h1, ih (cur ++ p) (by
        intro c hc
        rcases List.mem_append.mp hc with h | h
        · exact hcur c h
        · exact hp c h) hrest]
      simp [List.flatten_cons]
    · rw [if_neg h1]
      by_cases h2 : cur ≠ []
      · rw [if_pos h2, List.flatten_cons, jsTrim_eq_self cur hcur, ih p hp hrest]
        simp [List.flatten_cons]
      · rw [if_neg h2]
        push_neg at h2
        rw [ih p hp hrest, h2]
        simp [List.flatten_cons]

theorem accumLoop_mem_ne_nil (ml : ℕ) :
    ∀ (parts : List (List Char)) (cur : List Char),
      (∀ c ∈ cur, isJsSpace c = false) →
      (∀ p ∈ parts, ∀ c ∈ p, isJsSpace c = false) →
      ∀ s ∈ accumLoop ml parts cur, s ≠ [] := by
  intro parts
  induction parts with
  | nil =>
    intro cur hcur _ s hs
    simp only [accumLoop] at hs
    by_cases h : cur ≠ []
    · rw [if_pos h] at hs
      simp only [List.mem_singleton] at hs
      subst hs
      rw [jsTrim_eq_self cur hcur]
      exact h
    · rw [if_neg h] at hs
      simp at hs
  | cons p rest ih =>
    intro cur hcur hparts s hs
    have hp : ∀ c ∈ p, isJsSpace c = false := hparts p (List.mem_cons_self _ _)
    have hrest : ∀ q ∈ rest, ∀ c ∈ q, isJsSpace c = false :=
      fun q hq => hparts q (List.mem_cons_of_mem _ hq)
    simp only [accumLoop] at hs
    by_cases h1 : cur.length + p.length ≤ ml
    · rw [if_pos h1] at hs
      exact ih (cur ++ p) (by
        intro c hc
        rcases List.mem_append.mp hc with h | h
        · exact hcur c h
        · exact hp c h) hrest s hs
    · rw [if_neg h1] at hs
      by_cases h2 : cur ≠ []
      · rw [if_pos h2] at hs
        rcases List.mem_cons.mp hs with h | h
        · subst h
          rw [jsTrim_eq_self cur hcur]
          exact h2
        · exact ih p hp hrest s h
      · rw [if_neg h2] at hs
        exact ih p hp hrest s hs

theorem lastCommaLe_le (seg : List Char) :
    ∀ (pos p : ℕ), lastCommaLe seg pos = some p → p ≤ pos := by
  intro pos
  induction pos with
  | zero =>
    intro p hp
    simp only [lastCommaLe] at hp
    split at hp
    · exact le_of_eq (Option.some.inj hp).symm
    · exact Option.noConfusion hp
  | succ q ih =>
    intro p hp
    simp only [lastCommaLe] at hp
    split at hp
    · rw [← Option.some.inj hp]
    · exact le_trans (ih p hp) (Nat.le_succ q)

theorem forceEndIndex_gt (seg : List Char) (ml start : ℕ) (hml : 1 ≤ ml) :
    start < forceEndIndex seg ml start := by
  unfold forceEndIndex
  split
  · split
    · split
      · omega
      · omega
    · omega
  · omega

theorem forceEndIndex_le (seg : List Char) (ml start : ℕ) :
    forceEndIndex seg ml start ≤ start + ml + 1 := by
  unfold forceEndIndex
  split
  · split
    next p hp =>
      have := lastCommaLe_le seg (start + ml) p hp
      split
      · omega
      · omega
    next => omega
  · omega

theorem forceSplitLoop_mem_subset (seg : List Char) (ml : ℕ) :
    ∀ (fuel start : ℕ) (s : List Char), s ∈ forceSplitLoop seg ml start fuel →
      ∀ c ∈ s, c ∈ seg := by
  intro fuel
  induction fuel with
  | zero => intro start s hs; simp [forceSplitLoop] at hs
  | succ f ih =>
    intro start s hs c hc
    simp only [forceSplitLoop] at hs
    by_cases h : start < seg.length
    · rw [if_pos h] at hs
      rcases List.mem_cons.mp hs with h1 | h1
      · subst h1
        have h2 := jsTrim_subset _ _ hc
        have h3 := List.take_subset _ _ h2
        exact List.drop_subset _ _ h3
      · exact ih _ s h1 c hc
    · rw [if_neg h] at hs
      simp at hs

theorem forceSplitLoop_mem_length_le (seg : List Char) (ml : ℕ) :
    ∀ (fuel start : ℕ) (s : List Char), s ∈ forceSplitLoop seg ml start fuel →
      s.length ≤ ml + 1 := by
  intro fuel
  induction fuel with
  | zero => intro start s hs; simp [forceSplitLoop] at hs
  | succ f ih =>
    intro start s hs
    simp only [forceSplitLoop] at hs
    by_cases h : start < seg.length
    · rw [if_pos h] at hs
      rcases List.mem_cons.mp hs with h1 | h1
      · subst h1
        calc (jsTrim ((seg.drop start).take (forceEndIndex seg ml start - start))).length
            ≤ ((seg.drop start).take (forceEndIndex seg ml start - start)).length :=
              jsTrim_length_le _
          _ ≤ forceEndIndex seg ml start - start := by
              rw [List.length_take]
              omega
          _ ≤ ml + 1 := by
              have := forceEndIndex_le seg ml start
              omega
      · exact ih _ s h1
    · rw [if_neg h] at hs
      simp at hs

theorem forceSplitLoop_head_ne_nil (seg : List Char) (ml : ℕ) (hml : 1 ≤ ml)
    (hns : ∀ c ∈ seg, isJsSpace c = false) (fuel start : ℕ)
    (hstart : start < seg.length) :
    forceSplitLoop seg ml start (fuel + 1) =
      jsTrim ((seg.drop start).take (forceEndIndex seg ml start - start)) ::
        forceSplitLoop seg ml (forceEndIndex seg ml start) fuel ∧
    jsTrim ((seg.drop start).take (forceEndIndex seg ml start - start)) ≠ [] := by
  constructor
  · simp only [forceSplitLoop, if_pos hstart]
  · have hsub : ∀ c ∈ (seg.drop start).take (forceEndIndex seg ml start - start),
        isJsSpace c = false := by
      intro c hc
      exact hns c (List.drop_subset _ _ (List.take_subset _ _ hc))
    rw [jsTrim_eq_self _ hsub]
    intro hnil
    have hlen := congrArg List.length hnil
    rw [List.length_take, List.length_drop] at hlen
    have hgt := forceEndIndex_gt seg ml start hml
    simp only [List.length_nil] at hlen
    omega

theorem filter_length_ge_one {l : List (List Char)} {s : List Char}
    (hs : s ∈ l) (hne : s ≠ []) : 1 ≤ (l.filter fun x => x ≠ []).length := by
  have : s ∈ l.filter fun x => x ≠ [] := List.mem_filter.mpr ⟨hs, by simp [hne]⟩
  exact List.length_pos.mpr (List.ne_nil_of_mem this)

theorem forceSplit_filter_ge_one (seg : List Char) (ml : ℕ) (hml : 1 ≤ ml)
    (hns : ∀ c ∈ seg, isJsSpace c = false) (fuel start : ℕ)
    (hstart : start < seg.length) :
    1 ≤ ((forceSplitLoop seg ml start (fuel + 1)).filter fun x => x ≠ []).length := by
  obtain ⟨heq, hne⟩ := forceSplitLoop_head_ne_nil seg ml hml hns fuel start hstart
  rw [heq]
  exact filter_length_ge_one (List.mem_cons_self _ _) hne

theorem forceSplit_filter_ge_two (seg : List Char) (ml : ℕ) (hml : 1 ≤ ml)
    (hns : ∀ c ∈ seg, isJsSpace c = false) (hlong : ml + 1 < seg.length) :
    2 ≤ ((forceSplitLoop seg ml 0 (seg.length + 1)).filter fun x => x ≠ []).length := by
  have h0 : 0 < seg.length := by omega
  obtain ⟨heq, hne⟩ := forceSplitLoop_head_ne_nil seg ml hml hns seg.length 0 h0
  simp only [Nat.sub_zero, List.drop_zero] at heq hne
  rw [heq, List.filter_cons, if_pos (by simp [hne])]
  have he_lt : forceEndIndex seg ml 0 < seg.length := by
    have := forceEndIndex_le seg ml 0
    omega
  obtain ⟨f2, hf2⟩ : ∃ f2, seg.length = f2 + 1 := ⟨seg.length - 1, by omega⟩
  rw [hf2]
  have h1 := forceSplit_filter_ge_one seg ml hml hns f2 (forceEndIndex seg ml 0)
    (by omega)
  simp only [List.length_cons]
  omega

theorem utf8ByteLength_le_three_mul (s : List Char)
    (hbmp : ∀ c ∈ s, utf8Len c ≤ 3) : utf8ByteLength s ≤ 3 * s.length := by
  unfold utf8ByteLength
  induction s with
  | nil => simp
  | cons c rest ih =>
    simp only [List.map_cons, List.sum_cons, List.length_cons]
    have h1 := hbmp c (List.mem_cons_self _ _)
    have h2 := ih fun x hx => hbmp x (List.mem_cons_of_mem _ hx)
    omega

/-- C6 (amended).  For every BMP text without whitespace characters whose
UTF-8 byte length exceeds 1024, `splitTextByPunctuation(text, 300)` produces
at least 2 segments, each of UTF-8 byte length at most 1024 (an over-long
segment is force-split at the nearest preceding full-width comma within the
target length, or at the raw character boundary).  Whitespace must be
excluded: trimming can collapse whitespace-padded texts to a single (or no)
segment, as the counterexample shows. -/
theorem claimC6_long_text_split (text : List Char)
    (hbmp : ∀ c ∈ text, utf8Len c ≤ 3)
    (hns : ∀ c ∈ text, isJsSpace c = false)
    (hlong : 1024 < utf8ByteLength text) :
    2 ≤ (splitTextByPunctuation text 300).length ∧
    ∀ s ∈ splitTextByPunctuation text 300, utf8ByteLength s ≤ 1024 := by
  have hlen : 341 < text.length := by
    have := utf8ByteLength_le_three_mul text hbmp
    omega
  have hparts_flatten :
      ((splitKeepRuns isSentencePunct text).filter fun s => s ≠ []).flatten = text := by
    rw [flatten_filter_ne_nil]
    unfold splitKeepRuns
    rw [splitRunsLoop_flatten]
    rfl
  have hns_parts : ∀ p ∈ (splitKeepRuns isSentencePunct text).filter fun s => s ≠ [],
      ∀ c ∈ p, isJsSpace c = false := by
    intro p hp c hc
    apply hns
    rw [← hparts_flatten]
    exact List.mem_flatten.mpr ⟨p, hp, hc⟩
  have hseg_flatten :
      (accumLoop 300 ((splitKeepRuns isSentencePunct text).filter fun s => s ≠ []) []).flatten
        = text := by
    rw [accumLoop_flatten 300 _ [] (by simp) hns_parts, List.nil_append, hparts_flatten]
  have hseg_ne : ∀ s ∈ accumLoop 300
      ((splitKeepRuns isSentencePunct text).filter fun s => s ≠ []) [], s ≠ [] :=
    accumLoop_mem_ne_nil 300 _ [] (by simp) hns_parts
  have hseg_sub : ∀ s ∈ accumLoop 300
      ((splitKeepRuns isSentencePunct text).filter fun s => s ≠ []) [],
      ∀ c ∈ s, c ∈ text := by
    intro s hs c hc
    rcases accumLoop_mem_subset 300 _ [] s hs c hc with h | h
    · simp at h
    · rw [← hparts_flatten]
      exact h
  generalize hsegs :
    accumLoop 300 ((splitKeepRuns isSentencePunct text).filter fun s => s ≠ []) [] = segments at hseg_flatten hseg_ne hseg_sub
  have hresult : splitTextByPunctuation text 300 =
      ((segments.map fun segment =>
        if 1000 < utf8ByteLength segment then
          forceSplitLoop segment 300 0 (segment.length + 1)
        else [segment]).flatten).filter fun s => s ≠ [] := by
    unfold splitTextByPunctuation
    rw [hsegs]
  have hcontrib : ∀ s ∈ segments, 1 ≤
      (((if 1000 < utf8ByteLength s then
          forceSplitLoop s 300 0 (s.length + 1)
        else [s]) : List (List Char)).filter fun x => x ≠ []).length := by
    intro s hs
    by_cases hb : 1000 < utf8ByteLength s
    · rw [if_pos hb]
      have hsne : s ≠ [] := hseg_ne s hs
      have hslen : 0 < s.length := List.length_pos.mpr hsne
      obtain ⟨f, hf⟩ : ∃ f, s.length + 1 = f + 1 := ⟨s.length, rfl⟩
      rw [hf]
      exact forceSplit_filter_ge_one s 300 (by omega)
        (fun c hc => hns c (hseg_sub s hs c hc)) f 0 hslen
    · rw [if_neg hb, List.filter_cons, if_pos (by simp [hseg_ne s hs])]
      simp
  constructor
  · rw [hresult]
    cases segments with
    | nil =>
      exfalso
      simp only [List.flatten_nil] at hseg_flatten
      rw [← hseg_flatten] at hlen
      simp at hlen
    | cons s1 rest =>
      cases rest with
      | nil =>
        have hs1 : s1 = text := by
          simpa using hseg_flatten
        subst hs1
        have hb : 1000 < utf8ByteLength s1 := by omega
        simp only [List.map_cons, List.map_nil, List.flatten_cons, List.flatten_nil,
          List.append_nil, if_pos hb]
        exact forceSplit_filter_ge_two s1 300 (by omega) hns (by omega)
      | cons s2 rest2 =>
        have h1 := hcontrib s1 (List.mem_cons_self _ _)
        have h2 := hcontrib s2 (List.mem_cons_of_mem _ (List.mem_cons_self _ _))
        simp only [List.map_cons, List.flatten_cons, List.filter_append,
          List.length_append]
        omega
  · rw [hresult]
    intro s hsmem
    have hs1 := List.mem_filter.mp hsmem
    obtain ⟨fs, hfs, hsfs⟩ := List.mem_flatten.mp hs1.1
    obtain ⟨seg, hseg, hfseg⟩ := List.mem_map.mp hfs
    subst hfseg
    by_cases hb : 1000 < utf8ByteLength seg
    · rw [if_pos hb] at hsfs
      have hsub : ∀ c ∈ s, c ∈ text := by
        intro c hc
        exact hseg_sub seg hseg c (forceSplitLoop_mem_subset seg 300 _ 0 s hsfs c hc)
      have hslen : s.length ≤ 301 := forceSplitLoop_mem_length_le seg 300 _ 0 s hsfs
      have := utf8ByteLength_le_three_mul s fun c hc => hbmp c (hsub c hc)
      omega
    · rw [if_neg hb] at hsfs
      simp only [List.mem_singleton] at hsfs
      subst hsfs
      omega

set_option maxRecDepth 40000 in
/-- Witness for C6 on 342 CJK characters (1026 UTF-8 bytes, no whitespace):
two segments, the first being the 300-character piece, each within 1024
bytes. -/
theorem claimC6_witness :
    1024 < utf8ByteLength (List.replicate 342 '学') ∧
    2 ≤ (splitTextByPunctuation (List.replicate 342 '学') 300).length ∧
    List.replicate 300 '学' ∈ splitTextByPunctuation (List.replicate 342 '学') 300 ∧
    utf8ByteLength (List.replicate 300 '学') ≤ 1024 := by
  have h := claimC6_long_text_split (List.replicate 342 '学')
    (by decide) (by decide) (by decide)
  have hmem : List.replicate 300 '学' ∈
      splitTextByPunctuation (List.replicate 342 '学') 300 := by decide
  exact ⟨by decide, h.1, hmem, h.2 _ hmem⟩

set_option maxRecDepth 40000 in
/-- Counterexample to C6 as stated: `'a'` followed by 342 ideographic spaces
has 1027 UTF-8 bytes (> 1024), yet the splitter trims the whitespace away
and returns the single segment `"a"` — not at least 2 segments. -/
theorem claimC6_counterexample :
    1024 < utf8ByteLength ('a' :: List.replicate 342 '　') ∧
    (splitTextByPunctuation ('a' :: List.replicate 342 '　') 300).length = 1 := by
  exact ⟨by decide, by decide⟩

/-! ### Claim C4 — script generator (`generatePPTScript`, llm.js 203–270)

The language-model response is an arbitrary string; the defensive parsing
pipeline (regex extraction, `JSON.parse`, repair, normalization, template
fallback) is embedded below.  JSON values are modelled by `Json`; JS
`undefined` (a missing field) is folded into `jnull`, which has the same
truthiness and the same behaviour in the code paths used here. -/

inductive Json where
  | jnull
  | jbool (b : Bool)
  | jnum (q : ℚ)
  | jstr (s : List Char)
  | jarr (xs : List Json)
  | jobj (fields : List (List Char × Json))

/-- JS truthiness of a (parsed) value. -/
def jsTruthy : Json → Bool
  | .jnull => false
  | .jbool b => b
  | .jnum q => decide (q ≠ 0)
  | .jstr s => decide (s ≠ [])
  | .jarr _ => true
  | .jobj _ => true

/-- JS property access `v[key]`: the last binding of `key` on an object
(as produced by `JSON.parse` for duplicate keys), `undefined` (`jnull`)
otherwise. -/
def getField : Json → List Char → Json
  | .jobj fields, key =>
    match (fields.filter fun f => f.1 = key).getLast? with
    | some f => f.2
    | none => .jnull
  | _, _ => .jnull

/-- JS `a || b`. -/
def jsOr (a b : Json) : Json := if jsTruthy a then a else b

/-- JSON whitespace. -/
def jsonWs (c : Char) : Bool := c = ' ' || c = '\t' || c = '\n' || c = '\r'

/-- Drop leading JSON whitespace. -/
def skipJsonWs : List Char → List Char
  | [] => []
  | c :: rest => if jsonWs c then skipJsonWs rest else c :: rest

/-- Hexadecimal digit value. -/
def hexVal (c : Char) : Option ℕ :=
  if '0' ≤ c ∧ c ≤ '9' then some (c.toNat - 48)
  else if 'a' ≤ c ∧ c ≤ 'f' then some (c.toNat - 87)
  else if 'A' ≤ c ∧ c ≤ 'F' then some (c.toNat - 55)
  else none

/-- Parse a JSON string body (opening quote already consumed), returning the
decoded characters and the remainder.  `\uXXXX` escapes decode to the scalar
value (surrogate halves, which cannot be represented as a `Char`, decode to
`'\x00'` — all texts in scope are BMP without surrogate escapes). -/
def parseJsonString : ℕ → List Char → Option (List Char × List Char)
  | 0, _ => none
  | _ + 1, [] => none
  | fuel + 1, c :: rest =>
    if c = '"' then some ([], rest)
    else if c = '\\' then
      match rest with
      | [] => none
      | e :: rest2 =>
        let esc : Option (Char × List Char) :=
          if e = '"' then some ('"', rest2)
          else if e = '\\' then some ('\\', rest2)
          else if e = '/' then some ('/', rest2)
          else if e = 'b' then some ('\x08', rest2)
          else if e = 'f' then some ('\x0c', rest2)
          else if e = 'n' then some ('\n', rest2)
          else if e = 'r' then some ('\r', rest2)
          else if e = 't' then some ('\t', rest2)
          else if e = 'u' then
            match rest2 with
            | h1 :: h2 :: h3 :: h4 :: rest3 =>
              match hexVal h1, hexVal h2, hexVal h3, hexVal h4 with
              | some a, some b, some c2, some d =>
                some (Char.ofNat (((a * 16 + b) * 16 + c2) * 16 + d), rest3)
              | _, _, _, _ => none
            | _ => none
          else none
        match esc with
        | some (ch, rest3) =>
          match parseJsonString fuel rest3 with
          | some (s, rem) => some (ch :: s, rem)
          | none => none
        | none => none
    else if c.toNat < 0x20 then none
    else
      match parseJsonString fuel rest with
      | some (s, rem) => some (c :: s, rem)
      | none => none

/-- Split off a maximal run of decimal digits. -/
def takeDigits : List Char → List Char × List Char
  | [] => ([], [])
  | c :: rest =>
    if '0' ≤ c ∧ c ≤ '9' then
      let p := takeDigits rest
      (c :: p.1, p.2)
    else ([], c :: rest)

/-- Numeric value of a digit run. -/
def digitsVal (ds : List Char) : ℕ := ds.foldl (fun acc c => acc * 10 + (c.toNat - 48)) 0

/-- Parse a JSON number (exactly, as a rational). -/
def parseJsonNumber (s : List Char) : Option (ℚ × List Char) :=
  let signed : Bool × List Char :=
    match s with
    | '-' :: rest => (true, rest)
    | _ => (false, s)
  let p1 := takeDigits signed.2
  if p1.1 = [] then none
  else if 1 < p1.1.length ∧ p1.1.head? = some '0' then none
  else
    let base : ℚ := (digitsVal p1.1 : ℚ)
    let afterFrac : Option (ℚ × List Char) :=
      match p1.2 with
      | '.' :: rest =>
        let p2 := takeDigits rest
        if p2.1 = [] then none
        else some (base + (digitsVal p2.1 : ℚ) / ((10 : ℚ) ^ p2.1.length), p2.2)
      | _ => some (base, p1.2)
    match afterFrac with
    | none => none
    | some (v, s3) =>
      let afterExp : Option (ℚ × List Char) :=
        match s3 with
        | e :: rest =>
          if e = 'e' ∨ e = 'E' then
            let se : Bool × List Char :=
              match rest with
              | '+' :: r2 => (false, r2)
              | '-' :: r2 => (true, r2)
              | _ => (false, rest)
            let p3 := takeDigits se.2
            if p3.1 = [] then none
            else
              let ex : ℚ := (10 : ℚ) ^ digitsVal p3.1
              some (if se.1 then v / ex else v * ex, p3.2)
          else some (v, s3)
        | [] => some (v, s3)
      match afterExp with
      | none => none
      | some (v2, s4) => some (if signed.1 then -v2 else v2, s4)

mutual

/-- Recursive-descent `JSON.parse` value parser (fuelled). -/
def parseJsonValue : ℕ → List Char → Option (Json × List Char)
  | 0, _ => none
  | fuel + 1, s =>
    match skipJsonWs s with
    | [] => none
    | c :: rest =>
      if c = '{' then
        match skipJsonWs rest with
        | '}' :: rem => some (.jobj [], rem)
        | s2 =>
          match parseJsonFields fuel s2 with
          | some (fs, rem) => some (.jobj fs, rem)
          | none => none
      else if c = '[' then
        match skipJsonWs rest with
        | ']' :: rem => some (.jarr [], rem)
        | s2 =>
          match parseJsonItems fuel s2 with
          | some (xs, rem) => some (.jarr xs, rem)
          | none => none
      else if c = '"' then
        match parseJsonString (rest.length + 1) rest with
        | some (str, rem) => some (.jstr str, rem)
        | none => none
      else if c = 't' then
        match rest with
        | 'r' :: 'u' :: 'e' :: rem => some (.jbool true, rem)
        | _ => none
      else if c = 'f' then
        match rest with
        | 'a' :: 'l' :: 's' :: 'e' :: rem => some (.jbool false, rem)
        | _ => none
      else if c = 'n' then
        match rest with
        | 'u' :: 'l' :: 'l' :: rem => some (.jnull, rem)
        | _ => none
      else
        match parseJsonNumber (c :: rest) with
        | some (q, rem) => some (.jnum q, rem)
        | none => none

/-- Parser for the members of a non-empty JSON object. -/
def parseJsonFields : ℕ → List Char → Option (List (List Char × Json) × List Char)
  | 0, _ => none
  | fuel + 1, s =>
    match skipJsonWs s with
    | '"' :: rest =>
      match parseJsonString (rest.length + 1) rest with
      | some (key, rem) =>
        match skipJsonWs rem with
        | ':' :: rem2 =>
          match parseJsonValue fuel rem2 with
          | some (v, rem3) =>
            match skipJsonWs rem3 with
            | ',' :: rem4 =>
              match parseJsonFields fuel rem4 with
              | some (fs, rem5) => some ((key, v) :: fs, rem5)
              | none => none
            | '}' :: rem4 => some ([(key, v)], rem4)
            | _ => none
          | none => none
        | _ => none
      | none => none
    | _ => none

/-- Parser for the items of a non-empty JSON array. -/
def parseJsonItems : ℕ → List Char → Option (List Json × List Char)
  | 0, _ => none
  | fuel + 1, s =>
    match parseJsonValue fuel s with
    | some (v, rem) =>
      match skipJsonWs rem with
      | ',' :: rem2 =>
        match parseJsonItems fuel rem2 with
        | some (xs, rem3) => some (v :: xs, rem3)
        | none => none
      | ']' :: rem2 => some ([v], rem2)
      | _ => none
    | none => none

end

/-- Full `JSON.parse`: a value followed only by whitespace. -/
def jsonParse (s : List Char) : Option Json :=
  match parseJsonValue (s.length + 1) s with
  | some (v, rem) => if skipJsonWs rem = [] then some v else none
  | none => none

/-- Index of the last occurrence of a character, if any. -/
def lastIdxOf (c : Char) (s : List Char) : Option ℕ :=
  match s.reverse.findIdx? (· = c) with
  | some j => some (s.length - 1 - j)
  | none => none

/-- The literal `"slides"` (quotes included) looked for by the strategy-1
regex. -/
def slidesLit : List Char := "\"slides\"".toList

/-- The (leftmost-greedy) match of `/\{[\s\S]*"slides"[\s\S]*\}/`: from the
first `{` — provided some `"slides"` occurs after it — to the last `}` lying
at or beyond the end of that occurrence. -/
def matchSlidesObject (s : List Char) : Option (List Char) :=
  match s.findIdx? (· = '{') with
  | none => none
  | some i =>
    match (List.range (s.length + 1)).find?
        (fun p => decide (i + 1 ≤ p) && prefixCheck slidesLit (s.drop p)) with
    | none => none
    | some p =>
      match lastIdxOf '}' s with
      | none => none
      | some q => if p + 8 ≤ q then some ((s.drop i).take (q + 1 - i)) else none

/-- The (leftmost-greedy) match of `/\[[\s\S]*\]/`: from the first `[` to the
last `]`, when the latter comes after the former. -/
def matchBracketArray (s : List Char) : Option (List Char) :=
  match s.findIdx? (· = '['), lastIdxOf ']' s with
  | some i, some q => if i < q then some ((s.drop i).take (q + 1 - i)) else none
  | _, _ => none

/-- The global replace `/,(\s*[}\]])/g → '$1'` of `fixJsonString`
(llm.js 308), fuelled by the string length. -/
def removeTrailingCommas : ℕ → List Char → List Char
  | 0, s => s
  | fuel + 1, s =>
    match s with
    | [] => []
    | ',' :: rest =>
      match rest.dropWhile isJsSpace with
      | b :: rest2 =>
        if b = '}' ∨ b = ']' then
          rest.takeWhile isJsSpace ++ b :: removeTrailingCommas fuel rest2
        else ',' :: removeTrailingCommas fuel rest
      | [] => ',' :: removeTrailingCommas fuel rest
    | c :: rest => c :: removeTrailingCommas fuel rest

/-- The replace `/\n/g → '\\n'` of `fixJsonString` (llm.js 311). -/
def escapeNewlines (s : List Char) : List Char :=
  (s.map fun c => if c = '\n' then ['\\', 'n'] else [c]).flatten

/-- The function `fixJsonString(str)` (llm.js 275–317): trim to the outermost
brace/bracket pair, strip trailing commas, escape bare newlines. -/
def fixJsonString (s : List Char) : List Char :=
  let s1 :=
    match s.findIdx? (· = '{'), s.findIdx? (· = '[') with
    | some a, some b => s.drop (min a b)
    | some a, none => s.drop a
    | none, some b => s.drop b
    | none, none => s
  let s2 :=
    match lastIdxOf '}' s1, lastIdxOf ']' s1 with
    | some a, some b => s1.take (max a b + 1)
    | some a, none => s1.take (a + 1)
    | none, some b => s1.take (b + 1)
    | none, none => s1
  escapeNewlines (removeTrailingCommas s2.length s2)

/-- One normalized output slide (llm.js 254–260).  `title`, `script`,
`subtitle` and `subtitles` keep whatever (defaulted) JSON value the model
produced; `imagePrompt` keeps the JSON value that survived
`normalizeImagePrompt` — a string in the usual case, but an array when the
model supplied an array containing the exact element `'疯狂动物城'` (JS
`Array.prototype.includes` then short-circuits the `&&` and the array is
returned unchanged). -/
structure SlideOut where
  title : Json
  script : Json
  imagePrompt : Json
  subtitle : Json
  subtitles : Json

/-- The result record `{slides: [...]}`. -/
structure PPTScript where
  slides : List SlideOut

/-- JS `element === '疯狂动物城'` for one array element, the SameValueZero
comparison performed by `Array.prototype.includes`: only the exact string
matches. -/
def zootopiaElem : Json → Bool
  | .jstr s => decide (s = zootopiaCN)
  | _ => false

/-- The value names the required visual style: a string containing
`疯狂动物城` (or whose lower-casing contains `zootopia`), or an array with
an element that is exactly the string `疯狂动物城`. -/
def promptStyleOk : Json → Bool
  | .jstr s => listIncludes s zootopiaCN || listIncludes (s.map asciiLower) zootopiaEN
  | .jarr xs => xs.any zootopiaElem
  | _ => false

/-- The function `normalizeImagePrompt` applied to an arbitrary JSON value: falsy values
take the missing-prompt default and strings are normalized.  An array has
`.includes`, which compares elements: when some element is exactly the
string `'疯狂动物城'`, `!prompt.includes('疯狂动物城')` is false, the `&&`
short-circuits before `.toLowerCase()` is reached, and the array is
returned unchanged; otherwise `prompt.toLowerCase()` throws a `TypeError`
(modelled as `Except.error`).  Any other truthy value (number, `true`,
object) has no `.includes` and throws at once. -/
def normalizePromptJson (v : Json) : Except Unit Json :=
  if jsTruthy v then
    match v with
    | .jstr s => .ok (.jstr (normalizeImagePrompt s))
    | .jarr xs => if xs.any zootopiaElem then .ok (.jarr xs) else .error ()
    | _ => .error ()
  else .ok (.jstr (normalizeImagePrompt []))

/-- Decimal digits of a number, as characters. -/
def natToChars (n : ℕ) : List Char := (Nat.repr n).toList

/-- Normalization of one parsed slide (llm.js 254–260):
`title || `第N页``, `script || ''`, `normalizeImagePrompt(imagePrompt ||
image_prompt || '')`, `subtitle || ''`, `subtitles || undefined`. -/
def normalizeSlideJson (i : ℕ) (slide : Json) : Except Unit SlideOut := do
  let ip ← normalizePromptJson
    (jsOr (getField slide ("imagePrompt".toList))
      (jsOr (getField slide ("image_prompt".toList)) (.jstr [])))
  .ok (SlideOut.mk
    (jsOr (getField slide ("title".toList))
      (.jstr ("第".toList ++ natToChars (i + 1) ++ "页".toList)))
    (jsOr (getField slide ("script".toList)) (.jstr []))
    ip
    (jsOr (getField slide ("subtitle".toList)) (.jstr []))
    (jsOr (getField slide ("subtitles".toList)) .jnull))

/-- The map `result.slides.map((slide, index) => …)`: normalizes each slide in
order; a `TypeError` anywhere aborts the whole `map` (and is caught by the
outer `try`). -/
def normalizeSlides : ℕ → List Json → Except Unit (List SlideOut)
  | _, [] => .ok []
  | i, s :: rest => do
    let s2 ← normalizeSlideJson i s
    let rest2 ← normalizeSlides (i + 1) rest
    .ok (s2 :: rest2)

/-- The function `generateDefaultScript(knowledgePoint, summary)` (llm.js 339–374): the
fixed five-slide fallback template. -/
def generateDefaultScript (knowledgePoint summary : List Char) : PPTScript :=
  PPTScript.mk
    [SlideOut.mk (.jstr knowledgePoint)
      (.jstr ("课上这个".toList ++ knowledgePoint ++
        "你没太听懂是吧，没关系，我来给你讲讲。咱们一起把这个知识点搞清楚。".toList))
      (.jstr ("疯狂动物城风格教学插图，迪士尼皮克斯画质：画面以绿色大黑板为核心，占据画面90%以上，黑板上用粉笔清晰写着大标题\"".toList ++
        knowledgePoint ++
        "\"（中文），下面列出本节课要复习的重点和要点。朱迪兔子老师只在画面边缘简单出现，没有其他动物角色".toList))
      (.jstr ("复习：".toList ++ knowledgePoint)) .jnull,
    SlideOut.mk (.jstr ("知识讲解".toList))
      (.jstr (if summary = [] then
        ("让我们来回顾一下".toList ++ knowledgePoint ++
          "的基本概念和核心内容。首先，我们需要理解它的定义和基本特征。".toList)
      else summary))
      (.jstr ("疯狂动物城风格教学插图，迪士尼皮克斯画质：画面以绿色大黑板为核心，占据画面90%以上，黑板上用粉笔清晰写着\"".toList ++
        knowledgePoint ++
        "\"的定义、特征和核心要点（中文），旁边画着示意图和标注。朱迪兔子老师只在画面边缘简单出现，没有其他动物角色".toList))
      (.jstr ("核心概念".toList)) .jnull,
    SlideOut.mk (.jstr ("详细解析".toList))
      (.jstr ("接下来，我们深入分析".toList ++ knowledgePoint ++
        "的具体内容和应用方法。让我们逐步理解其中的关键要素。".toList))
      (.jstr ("疯狂动物城风格教学插图，迪士尼皮克斯画质：画面以绿色大黑板为核心，占据画面90%以上，黑板上详细列出".toList ++
        knowledgePoint ++
        "的各个要素、步骤或分类（中文），用粉笔清晰标注。朱迪兔子老师只在画面边缘简单出现，没有其他动物角色".toList))
      (.jstr ("深入理解".toList)) .jnull,
    SlideOut.mk (.jstr ("举例说明".toList))
      (.jstr ("为了更好地理解".toList ++ knowledgePoint ++
        "，我们来看一些具体的例子。这些例子可以帮助我们掌握这个概念的实际应用。".toList))
      (.jstr ("疯狂动物城风格教学插图，迪士尼皮克斯画质：画面以绿色大黑板为核心，占据画面90%以上，黑板上画着具体的例子和解题步骤（中文），用粉笔清晰标注。朱迪兔子老师只在画面边缘简单出现，没有其他动物角色".toList))
      (.jstr ("实例分析".toList)) .jnull,
    SlideOut.mk (.jstr ("课堂小结".toList))
      (.jstr ("好了，".toList ++ knowledgePoint ++
        "的主要内容就是这些。现在应该清楚多了吧？有什么不明白的随时问我哈。".toList))
      (.jstr ("疯狂动物城风格教学插图，迪士尼皮克斯画质：画面以绿色大黑板为核心，占据画面90%以上，黑板上画着知识点总结的思维导图或要点列表（中文），中心是\"".toList ++
        knowledgePoint ++
        "\"，周围连接着关键内容。朱迪兔子老师只在画面边缘简单出现，没有其他动物角色".toList))
      (.jstr (knowledgePoint ++ " - 总结回顾".toList)) .jnull]

/-- The three-strategy parse of the model response (llm.js 209–250):
(1) the `/\{[\s\S]*"slides"[\s\S]*\}/` object match; (2) the
`/\[[\s\S]*\]/` array match, wrapped into `{slides}` when it parses to an
array; (3) `fixJsonString` repair, again wrapping arrays. -/
def parsePPTResult (response : List Char) : Option Json :=
  match (match matchSlidesObject response with
         | some sub => jsonParse sub
         | none => none) with
  | some v => some v
  | none =>
    match (match matchBracketArray response with
           | some sub =>
             match jsonParse sub with
             | some (.jarr xs) => some (Json.jobj [("slides".toList, .jarr xs)])
             | _ => none
           | none => none) with
    | some v => some v
    | none =>
      if fixJsonString response = [] then none
      else
        match jsonParse (fixJsonString response) with
        | some (.jarr xs) => some (.jobj [("slides".toList, .jarr xs)])
        | some v => some v
        | none => none

/-- The function `generatePPTScript(knowledgePoint, summary, keyPoints)` (llm.js 203–270)
with the model call replaced by its response: parse defensively, validate
`result && result.slides && Array.isArray(result.slides)`, normalize each
slide; on any failure — parse failure, missing/non-array `slides`, or a
`TypeError` during normalization — fall back to the deterministic template. -/
def generatePPTScript (knowledgePoint summary response : List Char) : PPTScript :=
  match parsePPTResult response with
  | some result =>
    if jsTruthy result then
      match getField result ("slides".toList) with
      | .jarr xs =>
        match normalizeSlides 0 xs with
        | .ok slides => PPTScript.mk slides
        | .error _ => generateDefaultScript knowledgePoint summary
      | _ => generateDefaultScript knowledgePoint summary
    else generateDefaultScript knowledgePoint summary
  | none => generateDefaultScript knowledgePoint summary

theorem append_ne_nil_of_left {A : List Char} (B : List Char) (h : A ≠ []) :
    A ++ B ≠ [] := by
  intro hc
  exact h (List.append_eq_nil.mp hc).1

theorem normalizeImagePrompt_ne_nil (s : List Char) : normalizeImagePrompt s ≠ [] := by
  unfold normalizeImagePrompt
  by_cases h0 : s = []
  · rw [if_pos h0]
    decide
  · rw [if_neg h0]
    by_cases h1 : ¬(listIncludes s zootopiaCN || listIncludes (s.map asciiLower) zootopiaEN)
    · rw [if_pos h1]
      exact append_ne_nil_of_left _ (by decide)
    · rw [if_neg h1]
      exact h0

theorem normalizeImagePrompt_style (p : List Char) :
    (listIncludes (normalizeImagePrompt p) zootopiaCN ||
      listIncludes ((normalizeImagePrompt p).map asciiLower) zootopiaEN) = true := by
  by_cases h0 : p = []
  · subst h0
    decide
  · by_cases h1 : listIncludes p zootopiaCN || listIncludes (p.map asciiLower) zootopiaEN
    · have hnorm : normalizeImagePrompt p = p := by
        unfold normalizeImagePrompt
        rw [if_neg h0, if_neg (by simp [h1])]
      rw [hnorm]
      exact h1
    · have hnorm : normalizeImagePrompt p = styleTagPre ++ p := by
        unfold normalizeImagePrompt
        rw [if_neg h0, if_pos (by simp [h1])]
      rw [hnorm]
      simp [listIncludes_styleTag p]

theorem jstr_prompt_ok (X : List Char) (h : prefixCheck zootopiaCN X = true) :
    jsTruthy (Json.jstr X) = true ∧ promptStyleOk (Json.jstr X) = true := by
  constructor
  · cases X with
    | nil => exact absurd h (by decide)
    | cons c rest => simp [jsTruthy]
  · simp only [promptStyleOk, Bool.or_eq_true]
    exact Or.inl (listIncludes_of_prefixCheck h)

theorem normalizePromptJson_ok (v ip : Json)
    (h : normalizePromptJson v = .ok ip) :
    jsTruthy ip = true ∧ promptStyleOk ip = true := by
  unfold normalizePromptJson at h
  by_cases ht : jsTruthy v
  · rw [if_pos ht] at h
    cases v with
    | jstr s =>
      rw [← Except.ok.inj h]
      refine ⟨?_, ?_⟩
      · simp only [jsTruthy, decide_eq_true_eq]
        exact normalizeImagePrompt_ne_nil s
      · simp only [promptStyleOk]
        exact normalizeImagePrompt_style s
    | jarr xs =>
      have h2 : (if xs.any zootopiaElem = true then Except.ok (Json.jarr xs)
          else Except.error ()) = Except.ok ip := h
      by_cases ha : xs.any zootopiaElem = true
      · rw [if_pos ha] at h2
        rw [← Except.ok.inj h2]
        refine ⟨rfl, ?_⟩
        simp only [promptStyleOk]
        exact ha
      · rw [if_neg ha] at h2
        exact Except.noConfusion h2
    | jnull => exact Except.noConfusion h
    | jbool b => exact Except.noConfusion h
    | jnum q => exact Except.noConfusion h
    | jobj fs => exact Except.noConfusion h
  · rw [if_neg ht] at h
    rw [← Except.ok.inj h]
    refine ⟨?_, ?_⟩
    · simp only [jsTruthy, decide_eq_true_eq]
      exact normalizeImagePrompt_ne_nil []
    · simp only [promptStyleOk]
      exact normalizeImagePrompt_style []

theorem jsOr_truthy_of_right (a b : Json) (hb : jsTruthy b = true) :
    jsTruthy (jsOr a b) = true := by
  unfold jsOr
  by_cases ha : jsTruthy a
  · rw [if_pos ha]
    exact ha
  · rw [if_neg ha]
    exact hb

theorem normalizeSlideJson_ok (i : ℕ) (slide : Json) (s2 : SlideOut)
    (h : normalizeSlideJson i slide = .ok s2) :
    jsTruthy s2.title = true ∧ jsTruthy s2.imagePrompt = true ∧
      promptStyleOk s2.imagePrompt = true := by
  unfold normalizeSlideJson at h
  cases hp : normalizePromptJson
      (jsOr (getField slide ("imagePrompt".toList))
        (jsOr (getField slide ("image_prompt".toList)) (.jstr []))) with
  | error e =>
    rw [hp] at h
    exact Except.noConfusion h
  | ok ip =>
    rw [hp] at h
    simp only [Except.bind, Except.pure, pure, bind] at h
    have h2 := Except.ok.inj h
    constructor
    · rw [← h2]
      apply jsOr_truthy_of_right
      simp only [jsTruthy, decide_eq_true_eq]
      exact append_ne_nil_of_left _ (append_ne_nil_of_left _ (by decide))
    · rw [← h2]
      exact normalizePromptJson_ok _ ip hp

theorem normalizeSlides_ok :
    ∀ (xs : List Json) (i : ℕ) (slides : List SlideOut),
      normalizeSlides i xs = .ok slides →
      slides.length = xs.length ∧
        ∀ sl ∈ slides, jsTruthy sl.title = true ∧ jsTruthy sl.imagePrompt = true ∧
          promptStyleOk sl.imagePrompt = true := by
  intro xs
  induction xs with
  | nil =>
    intro i slides h
    simp only [normalizeSlides] at h
    rw [← Except.ok.inj h]
    exact ⟨rfl, by simp⟩
  | cons x rest ih =>
    intro i slides h
    simp only [normalizeSlides, bind, Except.bind] at h
    cases hx : normalizeSlideJson i x with
    | error e =>
      rw [hx] at h
      exact Except.noConfusion h
    | ok s2 =>
      rw [hx] at h
      cases hr : normalizeSlides (i + 1) rest with
      | error e =>
        rw [hr] at h
        exact Except.noConfusion h
      | ok rest2 =>
        rw [hr] at h
        simp only [pure, Except.pure] at h
        have h2 := Except.ok.inj h
        obtain ⟨hlen, hall⟩ := ih (i + 1) rest2 hr
        subst h2
        constructor
        · simp [hlen]
        · intro sl hsl
          rcases List.mem_cons.mp hsl with h | h
          · subst h
            exact normalizeSlideJson_ok i x sl hx
          · exact hall sl h

theorem generateDefaultScript_ok (knowledgePoint summary : List Char)
    (hkp : knowledgePoint ≠ []) :
    (generateDefaultScript knowledgePoint summary).slides.length = 5 ∧
      ∀ sl ∈ (generateDefaultScript knowledgePoint summary).slides,
        jsTruthy sl.title = true ∧ jsTruthy sl.imagePrompt = true ∧
          promptStyleOk sl.imagePrompt = true := by
  refine ⟨rfl, ?_⟩
  intro sl hsl
  simp only [generateDefaultScript, List.mem_cons, List.mem_singleton,
    List.not_mem_nil, or_false] at hsl
  rcases hsl with h | h | h | h | h
  all_goals subst h
  · exact ⟨by simp [jsTruthy, hkp],
      jstr_prompt_ok _ (prefixCheck_append _ (prefixCheck_append _ (by decide)))⟩
  · exact ⟨rfl, jstr_prompt_ok _ (prefixCheck_append _ (prefixCheck_append _ (by decide)))⟩
  · exact ⟨rfl, jstr_prompt_ok _ (prefixCheck_append _ (prefixCheck_append _ (by decide)))⟩
  · exact ⟨rfl, jstr_prompt_ok _ (by decide)⟩
  · exact ⟨rfl, jstr_prompt_ok _ (prefixCheck_append _ (prefixCheck_append _ (by decide)))⟩

/-- C4 (amended).  For every model response (and non-empty knowledge point),
`generatePPTScript` is total — the embedded function never throws — and every
slide of the returned script has a truthy title (in particular a non-empty
string when the title is a string) and a truthy, style-naming `imagePrompt`:
a non-empty string containing `疯狂动物城` (or whose lower-casing contains
`zootopia`), or — when the model supplied an array containing exactly the
string `'疯狂动物城'`, which satisfies `prompt.includes('疯狂动物城')` and
short-circuits the `&&` — that array passed through unchanged.  The returned
script has at least 1 slide **except** in one case the original claim
overlooks: a response that successfully parses to a result whose `slides`
field is the empty array passes the `Array.isArray` guard and is returned as
a script with 0 slides — the fallback only fires on parse failure. -/
theorem claimC4_script_nonempty (knowledgePoint summary response : List Char)
    (hkp : knowledgePoint ≠ []) :
    (∀ sl ∈ (generatePPTScript knowledgePoint summary response).slides,
        jsTruthy sl.title = true ∧ jsTruthy sl.imagePrompt = true ∧
          promptStyleOk sl.imagePrompt = true) ∧
    ((generatePPTScript knowledgePoint summary response).slides = [] →
      ∃ result, parsePPTResult response = some result ∧
        getField result ("slides".toList) = .jarr []) := by
  have hdef := generateDefaultScript_ok knowledgePoint summary hkp
  have hvac : ∀ {X : Prop}, (generateDefaultScript knowledgePoint summary).slides = [] → X := by
    intro X hnil
    rw [hnil] at hdef
    simp at hdef
  unfold generatePPTScript
  split
  next result hp =>
    split
    next ht =>
      split
      next xs hf =>
        split
        next slides hn =>
          obtain ⟨hlen, hall⟩ := normalizeSlides_ok xs 0 slides hn
          refine ⟨hall, ?_⟩
          intro hnil
          have hnil2 : slides = [] := hnil
          refine ⟨result, hp, ?_⟩
          rw [hf]
          rw [hnil2] at hlen
          simp only [List.length_nil] at hlen
          rw [List.eq_nil_of_length_eq_zero hlen.symm]
        next e hn => exact ⟨hdef.2, hvac⟩
      next hnotarr => exact ⟨hdef.2, hvac⟩
    next ht => exact ⟨hdef.2, hvac⟩
  next hp => exact ⟨hdef.2, hvac⟩

/-- A response that parses to an object with an empty `slides` array. -/
def emptySlidesResponse : List Char := "\x7b\"slides\": []\x7d".toList

/-- A plain-prose response with no JSON in it. -/
def proseResponse : List Char := "好的，我来给学生讲解这个知识点。".toList

/-- A response whose one slide carries an **array** `imagePrompt` containing
exactly the string `'疯狂动物城'`: `Array.prototype.includes` finds it, the
`&&` short-circuits, and the array survives normalization unchanged. -/
def arrayPromptResponse : List Char :=
  "[\x7b\"imagePrompt\": [\"疯狂动物城\"]\x7d]".toList

/-- Counterexample to C4 as stated: the response `\x7b"slides": []\x7d`
parses successfully, passes the `Array.isArray` guard, and produces a script
with **zero** slides — not at least 1. -/
theorem claimC4_counterexample :
    (generatePPTScript ("勾股定理".toList) ("概要".toList)
      emptySlidesResponse).slides.length = 0 := by
  decide

/-- Witness for C4 at two concrete responses.  On a prose response (all
parses fail) the fallback script has 5 slides, every one with truthy title
and truthy style-naming image prompt.  On the array-prompt response the
script keeps its 1 slide, whose array `imagePrompt` passed through
`prompt.includes('疯狂动物城')` unchanged. -/
theorem claimC4_witness :
    (generatePPTScript ("勾股定理".toList) ("概要".toList) proseResponse).slides.length
      = 5 ∧
    ((generatePPTScript ("勾股定理".toList) ("概要".toList) proseResponse).slides.map
      fun sl => jsTruthy sl.title && (jsTruthy sl.imagePrompt &&
        promptStyleOk sl.imagePrompt)).all id = true ∧
    (generatePPTScript ("勾股定理".toList) ("概要".toList)
      arrayPromptResponse).slides.length = 1 ∧
    ((generatePPTScript ("勾股定理".toList) ("概要".toList)
      arrayPromptResponse).slides.map
      fun sl => jsTruthy sl.title && (jsTruthy sl.imagePrompt &&
        promptStyleOk sl.imagePrompt)).all id = true := by
  have h := claimC4_script_nonempty ("勾股定理".toList) ("概要".toList) proseResponse
    (by decide)
  have ha := claimC4_script_nonempty ("勾股定理".toList) ("概要".toList)
    arrayPromptResponse (by decide)
  refine ⟨by decide, ?_, by decide, ?_⟩
  · rw [List.all_eq_true]
    intro b hb
    obtain ⟨sl, hsl, hb2⟩ := List.mem_map.mp hb
    obtain ⟨h1, h2, h3⟩ := h.1 sl hsl
    rw [← hb2]
    simp [h1, h2, h3]
  · rw [List.all_eq_true]
    intro b hb
    obtain ⟨sl, hsl, hb2⟩ := List.mem_map.mp hb
    obtain ⟨h1, h2, h3⟩ := ha.1 sl hsl
    rw [← hb2]
    simp [h1, h2, h3]
